import Mathlib

/-!
# Token framing and verification pipeline of the `jwt` package

A shallow embedding of `verify.go`: `ParseToken`, `RawToken.DecodeToken`, `Verify`,
`ValidateHeader` and `ValidatePayload`.

* A Go `[]byte` is a `List Byte`; a Go `int` offset is an `Int`.
* A Go `error` is an `Option Error`; `none` is `nil`.
* The collaborators (the `Algorithm`, the optional `Resolver`, the options, the validators and
  the base64url/JSON codec) are arbitrary state transformers over a caller-chosen world `W`,
  which stands for everything outside the package: the algorithm's internals, the caller's
  memory and the claims destination.
* Every call the pipeline makes to a collaborator is appended, with its arguments and its
  result, to a trace of `Event`s, so that statements about call order and call counts are
  statements about that trace.
-/

namespace Jwt

/-- One byte of a token. -/
abbrev Byte := Fin 256

/-- The delimiter byte `'.'`. -/
def dot : Byte := 46

/-- Modelled from the spec: the error values. `ErrMalformed`, the segment-splitting failure, is
declared outside `verify.go`; `ErrAlgValidation` is declared in `verify.go`; `other` stands
for the opaque errors of the collaborators. -/
inductive Error where
  | ErrMalformed
  | ErrAlgValidation
  | other (code : Nat)
  deriving DecidableEq, Repr

/-- Go's `error`: `none` is `nil`. -/
abbrev error := Option Error

/-- Modelled from the spec: the `Header` struct, declared outside `verify.go`: algorithm name,
type and key id. The pipeline itself reads only `Algorithm`. -/
structure Header where
  Algorithm : String := ""
  Typ : String := ""
  KeyID : String := ""
  deriving DecidableEq, Repr

/-- The calls the pipeline makes to its collaborators, each with its arguments and result. -/
inductive Event where
  | decodeHeader (seg : List Byte) (res : error)
  | resolve (hd : Header) (res : error)
  | option (idx : Nat) (res : error)
  | algVerify (signingInput sig : List Byte) (res : error)
  | decode (seg : List Byte) (res : error)
  | validate (idx : Nat) (res : error)
  deriving DecidableEq, Repr

/-- The world outside the package together with the calls made so far, oldest first. -/
structure St (W : Type) where
  world : W
  trace : List Event

/-- The initial state of a call: the caller's world and an empty trace. -/
def St.init {W : Type} (w : W) : St W := { world := w, trace := [] }

/-- Modelled from the spec: the `Algorithm` interface, declared outside `verify.go`, with
`Name()` and `Verify(signingInput, signature)`; `Resolve` is `some` exactly when the value
also implements `Resolver`. Every method may read and change the world. -/
structure Algorithm (W : Type) where
  Name : W → String × W
  Verify : List Byte → List Byte → W → error × W
  Resolve : Option (Header → W → error × W)

/-- Modelled from the spec: a `Validator`, declared outside `verify.go`, applied to the
`*Payload` attached to the token (`none` is `nil`). -/
abbrev Validator (W P : Type) := Option P → W → error × W

/-- Modelled from the spec: the `RawToken` struct, whose declaration is not among the sources.
It holds the raw bytes, the two delimiter offsets, the decoded header, the algorithm and the
claims pointer and validators attached by `ValidatePayload`. -/
structure RawToken (W P : Type) where
  token : List Byte
  sep1 : Int
  sep2 : Int
  hd : Header
  alg : Algorithm W
  pl : Option P
  vds : List (Validator W P)

/-- `VerifyOption`: a function on `*RawToken` returning an error. -/
abbrev VerifyOption (W P : Type) := RawToken W P → W → error × RawToken W P × W

/-- The base64url and JSON decoders, external to the package. `header` decodes a segment into
the header it is given; `claims` decodes a segment into the destination `payload`. -/
structure Codec (W P : Type) where
  header : List Byte → Header → error × Header
  claims : List Byte → P → W → error × W

/-- Go's `bytes.IndexByte`: index of the first `c` in `b`, or `-1`. -/
def IndexByte : List Byte → Byte → Int
  | [], _ => -1
  | x :: xs, c =>
    if x = c then 0
    else
      let r := IndexByte xs c
      if r < 0 then -1 else r + 1

/-- Go's slice expression `b[lo:hi]`. -/
def slice (b : List Byte) (lo hi : Int) : List Byte :=
  (b.take hi.toNat).drop lo.toNat

/-- Go's slice expression `b[lo:]`. -/
def sliceFrom (b : List Byte) (lo : Int) : List Byte :=
  b.drop lo.toNat

/-- The composite literal `RawToken{alg: alg}`: every other field has its zero value. -/
def RawToken.new {W P : Type} (alg : Algorithm W) : RawToken W P :=
  { token := [], sep1 := 0, sep2 := 0, hd := {}, alg := alg, pl := none, vds := [] }

/-- Modelled from the spec: `setToken`, not among the sources. It records the buffer and the
two delimiters as offsets into that buffer: `sep1` as given, and for the second delimiter,
which the caller found at `sep2` within `token[sep1+1:]`, the index `sep1 + 1 + sep2`. The
stored offsets are the ones of the invariant `0 <= sep1 < sep2 < len(raw)`. -/
def RawToken.setToken {W P : Type} (rt : RawToken W P) (token : List Byte) (sep1 sep2 : Int) :
    RawToken W P :=
  { rt with token := token, sep1 := sep1, sep2 := sep1 + 1 + sep2 }

/-- Modelled from the spec: the header segment, the bytes before the first delimiter. -/
def RawToken.header {W P : Type} (rt : RawToken W P) : List Byte :=
  slice rt.token 0 rt.sep1

/-- Modelled from the spec: the claims segment, the bytes between the two delimiters. -/
def RawToken.claims {W P : Type} (rt : RawToken W P) : List Byte :=
  slice rt.token (rt.sep1 + 1) rt.sep2

/-- Modelled from the spec: the signing input, the raw bytes spanning the header segment, the
delimiter and the claims segment, which is everything before the second delimiter. -/
def RawToken.headerPayload {W P : Type} (rt : RawToken W P) : List Byte :=
  slice rt.token 0 rt.sep2

/-- Modelled from the spec: the signature segment, everything after the second delimiter, a
view into the original buffer. `sig()` has a single result, so no decoding that can fail
happens in it. -/
def RawToken.sig {W P : Type} (rt : RawToken W P) : List Byte :=
  sliceFrom rt.token (rt.sep2 + 1)

/-- Modelled from the spec: `decodeHeader`, not among the sources. It decodes the header
segment into `rt.hd` and returns the decoder's error unchanged. -/
def RawToken.decodeHeader {W P : Type} (rt : RawToken W P) (cd : Codec W P) (s : St W) :
    error × RawToken W P × St W :=
  let r := cd.header rt.header rt.hd
  (r.1, { rt with hd := r.2 },
    { world := s.world, trace := s.trace ++ [Event.decodeHeader rt.header r.1] })

/-- The validator loop of `decode`: each validator in order on the attached pointer, stopping
at the first error. -/
def runValidators {W P : Type} :
    List (Validator W P) → Nat → Option P → St W → error × St W
  | [], _, _, s => (none, s)
  | vd :: rest, i, pl, s =>
    let r := vd pl s.world
    let s1 : St W := { world := r.2, trace := s.trace ++ [Event.validate i r.1] }
    match r.1 with
    | some err => (some err, s1)
    | none => runValidators rest (i + 1) pl s1

/-- Modelled from the spec: `decode`, not among the sources. It decodes the claims segment
into the caller's destination and then, when that succeeded, runs the attached validators in
order; the first failure is returned. -/
def RawToken.decode {W P : Type} (rt : RawToken W P) (cd : Codec W P) (payload : P)
    (s : St W) : error × St W :=
  let r := cd.claims rt.claims payload s.world
  let s1 : St W := { world := r.2, trace := s.trace ++ [Event.decode rt.claims r.1] }
  match r.1 with
  | some err => (some err, s1)
  | none => runValidators rt.vds 0 rt.pl s1

/-- The call `rv.Resolve(hd)`. -/
def callResolve {W : Type} (rv : Header → W → error × W) (hd : Header) (s : St W) :
    error × St W :=
  let r := rv hd s.world
  (r.1, { world := r.2, trace := s.trace ++ [Event.resolve hd r.1] })

/-- The call `alg.Verify(signingInput, sig)`. -/
def callVerify {W : Type} (alg : Algorithm W) (signingInput sig : List Byte) (s : St W) :
    error × St W :=
  let r := alg.Verify signingInput sig s.world
  (r.1, { world := r.2, trace := s.trace ++ [Event.algVerify signingInput sig r.1] })

/-- The capability test `alg.(Resolver)` followed by `rv.Resolve(hd)` when it succeeds. -/
def resolveStep {W : Type} (alg : Algorithm W) (hd : Header) (s : St W) : error × St W :=
  match alg.Resolve with
  | some rv => callResolve rv hd s
  | none => (none, s)

/-- The loop `for _, opt := range opts` of `Verify`; `i` is the index of the head of the list
in the original option list. -/
def runOpts {W P : Type} :
    List (VerifyOption W P) → Nat → RawToken W P → St W → error × RawToken W P × St W
  | [], _, rt, s => (none, rt, s)
  | opt :: rest, i, rt, s =>
    let r := opt rt s.world
    let s1 : St W := { world := r.2.2, trace := s.trace ++ [Event.option i r.1] }
    match r.1 with
    | some err => (some err, r.2.1, s1)
    | none => runOpts rest (i + 1) r.2.1 s1

/-- `ParseToken`. -/
def ParseToken {W P : Type} (token : List Byte) (alg : Algorithm W) : RawToken W P × error :=
  let rt : RawToken W P := RawToken.new alg
  let sep1 := IndexByte token dot
  if sep1 < 0 then (rt, some Error.ErrMalformed)
  else
    let cbytes := sliceFrom token (sep1 + 1)
    let sep2 := IndexByte cbytes dot
    if sep2 < 0 then (rt, some Error.ErrMalformed)
    else (rt.setToken token sep1 sep2, none)

/-- `RawToken.DecodeToken`. The receiver is a copy, so only the error and the effects on the
world come back. -/
def RawToken.DecodeToken {W P : Type} (r : RawToken W P) (cd : Codec W P) (payload : P)
    (s : St W) : error × St W :=
  match r.decodeHeader cd s with
  | (some err, _, s1) => (some err, s1)
  | (none, r1, s1) =>
    match resolveStep r1.alg r1.hd s1 with
    | (some err, s2) => (some err, s2)
    | (none, s2) => r1.decode cd payload s2

/-- `Verify`. The result is the returned header, the returned error, and the world and trace
at return. -/
def Verify {W P : Type} (cd : Codec W P) (token : List Byte) (alg : Algorithm W) (payload : P)
    (opts : List (VerifyOption W P)) (w : W) : Header × error × St W :=
  let rt : RawToken W P := RawToken.new alg
  let s : St W := St.init w
  let sep1 := IndexByte token dot
  if sep1 < 0 then (rt.hd, some Error.ErrMalformed, s)
  else
    let cbytes := sliceFrom token (sep1 + 1)
    let sep2 := IndexByte cbytes dot
    if sep2 < 0 then (rt.hd, some Error.ErrMalformed, s)
    else
      match (rt.setToken token sep1 sep2).decodeHeader cd s with
      | (some err, rt1, s1) => (rt1.hd, some err, s1)
      | (none, rt1, s1) =>
        match resolveStep alg rt1.hd s1 with
        | (some err, s2) => (rt1.hd, some err, s2)
        | (none, s2) =>
          match runOpts opts 0 rt1 s2 with
          | (some err, rt3, s3) => (rt3.hd, some err, s3)
          | (none, rt3, s3) =>
            match callVerify alg rt3.headerPayload rt3.sig s3 with
            | (some err, s4) => (rt3.hd, some err, s4)
            | (none, s4) =>
              let r := rt3.decode cd payload s4
              (rt3.hd, r.1, r.2)

/-- `ValidateHeader`. -/
def ValidateHeader {W P : Type} : VerifyOption W P := fun rt w =>
  let r := rt.alg.Name w
  if r.1 ≠ rt.hd.Algorithm then (some Error.ErrAlgValidation, rt, r.2)
  else (none, rt, r.2)

/-- `ValidatePayload`. -/
def ValidatePayload {W P : Type} (pl : Option P) (vds : List (Validator W P)) :
    VerifyOption W P := fun rt w =>
  (none, { rt with pl := pl, vds := vds }, w)


/-- The framed token that `ParseToken` and `Verify` hand to the later stages: `RawToken{alg}`
after `setToken(token, sep1, sep2)` with the two offsets found by `bytes.IndexByte`. -/
def framed {W P : Type} (token : List Byte) (alg : Algorithm W) : RawToken W P :=
  (RawToken.new alg).setToken token (IndexByte token dot)
    (IndexByte (sliceFrom token (IndexByte token dot + 1)) dot)

/-- Whether an event is a call of `alg.Verify`. -/
def Event.isAlgVerify : Event → Bool
  | .algVerify _ _ _ => true
  | _ => false

/-- Whether an event is a run of the claims decoder. -/
def Event.isDecode : Event → Bool
  | .decode _ _ => true
  | _ => false

/-- Whether an event is a call of an option. -/
def Event.isOption : Event → Bool
  | .option _ _ => true
  | _ => false

/-- Whether an event is a call of `Resolve`. -/
def Event.isResolve : Event → Bool
  | .resolve _ _ => true
  | _ => false

/-- Whether an event is a call of a validator. -/
def Event.isValidate : Event → Bool
  | .validate _ _ => true
  | _ => false

/-- Whether an event is a run of the header decoder. -/
def Event.isDecodeHeader : Event → Bool
  | .decodeHeader _ _ => true
  | _ => false

/-- The trace of `n` consecutive options, the first of index `i`, that all returned nil. -/
def okOptions (i n : Nat) : List Event :=
  (List.range n).map (fun j => Event.option (i + j) none)


/-! ## Concrete collaborators

A world that is a single number (the content of the claims destination), a codec that accepts
every segment, and an algorithm that accepts exactly the signature segment `"s"`. -/

/-- A codec that decodes every header segment to `alg = "HS256"` and every claims segment to
its length plus one, written to the destination. -/
def sampleCodec : Codec Nat Unit where
  header := fun _ hd => (none, { hd with Algorithm := "HS256" })
  claims := fun seg _ _ => (none, seg.length + 1)

/-- A codec whose header decoder rejects every segment. -/
def brokenCodec : Codec Nat Unit where
  header := fun _ hd => (some (Error.other 3), hd)
  claims := fun seg _ _ => (none, seg.length + 1)

/-- An algorithm named `HS256` that accepts the signature segment `"s"` only. -/
def sampleAlg : Algorithm Nat where
  Name := fun w => ("HS256", w)
  Verify := fun _ sg w => if sg = [115] then (none, w) else (some (Error.other 1), w)
  Resolve := none

/-- As `sampleAlg`, named `none`, with a `Resolve` that accepts every header. -/
def resolvingAlg : Algorithm Nat where
  Name := fun w => ("none", w)
  Verify := fun _ sg w => if sg = [115] then (none, w) else (some (Error.other 1), w)
  Resolve := some (fun _ w => (none, w))

/-- As `sampleAlg`, with a `Resolve` that rejects every header. -/
def unresolvedAlg : Algorithm Nat where
  Name := fun w => ("HS256", w)
  Verify := fun _ sg w => if sg = [115] then (none, w) else (some (Error.other 1), w)
  Resolve := some (fun _ w => (some (Error.other 2), w))

/-- An option that always fails. -/
def failingOption : VerifyOption Nat Unit := fun rt w => (some (Error.other 4), rt, w)

/-- The token `a.b.s`. -/
def goodToken : List Byte := [97, 46, 98, 46, 115]

/-- The token `a.b.x`, whose signature `sampleAlg` rejects. -/
def badSigToken : List Byte := [97, 46, 98, 46, 120]

/-- The part of `Verify` that follows `setToken`, on the framed token: header decode,
`Resolve`, the options, `alg.Verify`, claims decode. -/
def verifyParsed {W P : Type} (cd : Codec W P) (rt : RawToken W P) (alg : Algorithm W)
    (payload : P) (opts : List (VerifyOption W P)) (s : St W) : Header × error × St W :=
  match rt.decodeHeader cd s with
  | (some err, rt1, s1) => (rt1.hd, some err, s1)
  | (none, rt1, s1) =>
    match resolveStep alg rt1.hd s1 with
    | (some err, s2) => (rt1.hd, some err, s2)
    | (none, s2) =>
      match runOpts opts 0 rt1 s2 with
      | (some err, rt3, s3) => (rt3.hd, some err, s3)
      | (none, rt3, s3) =>
        match callVerify alg rt3.headerPayload rt3.sig s3 with
        | (some err, s4) => (rt3.hd, some err, s4)
        | (none, s4) =>
          let r := rt3.decode cd payload s4
          (rt3.hd, r.1, r.2)

/-- The trace of `n` consecutive validators, the first of index `i`, that all returned nil. -/
def okValidations (i n : Nat) : List Event :=
  (List.range n).map (fun j => Event.validate (i + j) none)

/-- The token `a.b.c.d`, with three delimiters. -/
def fourPartToken : List Byte := [97, 46, 98, 46, 99, 46, 100]

/-- The token `a.b.QQ`; `QQ` is the base64url text of the one byte `A`. -/
def encodedSigToken : List Byte := [97, 46, 98, 46, 81, 81]

/-- A validator that always fails. -/
def failingValidator : Validator Nat Unit := fun _ w => (some (Error.other 5), w)

/-- A validator that always passes and counts its calls in the world. -/
def passingValidator : Validator Nat Unit := fun _ w => (none, w + 100)

/-! ## `bytes.IndexByte` -/

theorem IndexByte_ge (b : List Byte) (c : Byte) : -1 ≤ IndexByte b c := by
  induction b with
  | nil => simp [IndexByte]
  | cons x xs ih =>
    simp only [IndexByte]
    split_ifs <;> omega

theorem IndexByte_neg_iff (b : List Byte) (c : Byte) : IndexByte b c < 0 ↔ c ∉ b := by
  induction b with
  | nil => simp [IndexByte]
  | cons x xs ih =>
    have hge := IndexByte_ge xs c
    simp only [IndexByte, List.mem_cons, not_or]
    split_ifs with h1 h2
    · subst h1; simp
    · constructor
      · intro _; exact ⟨fun h => h1 h.symm, ih.mp h2⟩
      · intro _; omega
    · constructor
      · intro h; omega
      · intro h; exact absurd (ih.mpr h.2) h2

theorem IndexByte_lt_length (b : List Byte) (c : Byte) : IndexByte b c < b.length := by
  induction b with
  | nil => simp [IndexByte]
  | cons x xs ih =>
    simp only [IndexByte, List.length_cons]
    push_cast
    split_ifs <;> omega

/-- At a hit, the bytes before the index are not `c`, the byte at the index is `c`. -/
theorem IndexByte_split (b : List Byte) (c : Byte) (h : 0 ≤ IndexByte b c) :
    b = b.take (IndexByte b c).toNat ++ c :: b.drop ((IndexByte b c).toNat + 1) ∧
      c ∉ b.take (IndexByte b c).toNat := by
  induction b with
  | nil => simp [IndexByte] at h
  | cons x xs ih =>
    simp only [IndexByte] at h ⊢
    split_ifs at h ⊢ with h1 h2
    · subst h1; simp
    · omega
    · have h3 : 0 ≤ IndexByte xs c := by omega
      obtain ⟨e1, e2⟩ := ih h3
      have ht : (IndexByte xs c + 1).toNat = (IndexByte xs c).toNat + 1 := by omega
      rw [ht]
      simp only [List.take_succ_cons, List.drop_succ_cons, List.cons_append, List.mem_cons,
        not_or]
      exact ⟨by rw [← e1], fun h => h1 h.symm, e2⟩

theorem count_of_IndexByte (b : List Byte) (c : Byte) (h : 0 ≤ IndexByte b c) :
    b.count c = 1 + (sliceFrom b (IndexByte b c + 1)).count c := by
  obtain ⟨e1, e2⟩ := IndexByte_split b c h
  have ht : (IndexByte b c + 1).toNat = (IndexByte b c).toNat + 1 := by omega
  unfold sliceFrom
  rw [ht]
  conv_lhs => rw [e1]
  rw [List.count_append, List.count_cons_self, List.count_eq_zero_of_not_mem e2]
  omega

/-! ## Framing -/

/-- Both outcomes of the framing stage, in terms of the number of delimiters. -/
theorem framing_cases (token : List Byte) :
    (IndexByte token dot < 0 ∧ token.count dot = 0) ∨
    (0 ≤ IndexByte token dot ∧ IndexByte (sliceFrom token (IndexByte token dot + 1)) dot < 0 ∧
      token.count dot = 1) ∨
    (0 ≤ IndexByte token dot ∧ 0 ≤ IndexByte (sliceFrom token (IndexByte token dot + 1)) dot ∧
      2 ≤ token.count dot) := by
  by_cases h1 : IndexByte token dot < 0
  · left
    exact ⟨h1, List.count_eq_zero_of_not_mem ((IndexByte_neg_iff _ _).mp h1)⟩
  · right
    have h1' : 0 ≤ IndexByte token dot := by omega
    have hc := count_of_IndexByte token dot h1'
    by_cases h2 : IndexByte (sliceFrom token (IndexByte token dot + 1)) dot < 0
    · left
      have := List.count_eq_zero_of_not_mem ((IndexByte_neg_iff _ _).mp h2)
      exact ⟨h1', h2, by omega⟩
    · right
      have h2' : 0 ≤ IndexByte (sliceFrom token (IndexByte token dot + 1)) dot := by omega
      have := count_of_IndexByte _ dot h2'
      exact ⟨h1', h2', by omega⟩

/-- C1: `ParseToken` returns `ErrMalformed` exactly when the token holds fewer than two `'.'`
bytes, and a nil error exactly when it holds at least two, whatever the segments contain. -/
theorem ParseToken_error_iff {W P : Type} (token : List Byte) (alg : Algorithm W) :
    ((ParseToken token alg : RawToken W P × error).2 = some Error.ErrMalformed ↔
        token.count dot < 2) ∧
      ((ParseToken token alg : RawToken W P × error).2 = none ↔ 2 ≤ token.count dot) := by
  rcases framing_cases token with ⟨h1, hc⟩ | ⟨h1, h2, hc⟩ | ⟨h1, h2, hc⟩
  · simp [ParseToken, h1, hc]
  · have h1' : ¬ IndexByte token dot < 0 := by omega
    simp [ParseToken, h1', h2, hc]
  · have h1' : ¬ IndexByte token dot < 0 := by omega
    have h2' : ¬ IndexByte (sliceFrom token (IndexByte token dot + 1)) dot < 0 := by omega
    simp only [ParseToken, h1', h2', if_false]
    constructor
    · constructor
      · intro h; cases h
      · intro h; omega
    · simp [hc]

/-- Tokens with empty segments parse: `..` and `a.b.` are accepted, `a.b` is not. -/
theorem ParseToken_empty_segments :
    (ParseToken [46, 46] sampleAlg : RawToken Nat Unit × error).2 = none ∧
      (ParseToken [97, 46, 98, 46] sampleAlg : RawToken Nat Unit × error).2 = none ∧
      (ParseToken [97, 46, 98] sampleAlg : RawToken Nat Unit × error).2 =
        some Error.ErrMalformed := by
  decide

/-! ## Traces of the stages -/

theorem okOptions_succ (i n : Nat) :
    okOptions i (n + 1) = Event.option i none :: okOptions (i + 1) n := by
  induction n generalizing i with
  | zero => rfl
  | succ n ih =>
    have h1 : okOptions i (n + 1 + 1) = okOptions i (n + 1) ++ [Event.option (i + (n + 1)) none] := by
      simp [okOptions, List.range_succ]
    have h2 : okOptions (i + 1) (n + 1) = okOptions (i + 1) n ++ [Event.option (i + 1 + n) none] := by
      simp [okOptions, List.range_succ]
    rw [h1, ih, h2]
    have : i + (n + 1) = i + 1 + n := by omega
    simp [this]

theorem okOptions_zero (i : Nat) : okOptions i 0 = [] := rfl

theorem mem_okOptions {i n : Nat} {e : Event} (h : e ∈ okOptions i n) :
    ∃ j, j < n ∧ e = Event.option (i + j) none := by
  simp only [okOptions, List.mem_map, List.mem_range] at h
  obtain ⟨j, hj, rfl⟩ := h
  exact ⟨j, hj, rfl⟩

/-- A loop over the options that ends without error has called every option once, in order. -/
theorem runOpts_none {W P : Type} (opts : List (VerifyOption W P)) (i : Nat)
    (rt rt1 : RawToken W P) (s s1 : St W) (h : runOpts opts i rt s = (none, rt1, s1)) :
    s1.trace = s.trace ++ okOptions i opts.length := by
  induction opts generalizing i rt s with
  | nil =>
    simp only [runOpts, Prod.mk.injEq] at h
    obtain ⟨-, -, rfl⟩ := h
    simp [okOptions]
  | cons o rest ih =>
    simp only [runOpts] at h
    split at h
    · simp at h
    · rename_i herr
      rw [ih _ _ _ h]
      simp [okOptions_succ, herr]

/-- A loop over the options that ends with an error has called the options up to the first
failing one once each, in order, and no other. -/
theorem runOpts_some {W P : Type} (opts : List (VerifyOption W P)) (i : Nat)
    (rt rt1 : RawToken W P) (s s1 : St W) (e : Error)
    (h : runOpts opts i rt s = (some e, rt1, s1)) :
    ∃ k, k < opts.length ∧
      s1.trace = s.trace ++ okOptions i k ++ [Event.option (i + k) (some e)] := by
  induction opts generalizing i rt s with
  | nil => simp [runOpts] at h
  | cons o rest ih =>
    simp only [runOpts] at h
    split at h
    · rename_i err herr
      simp only [Prod.mk.injEq, Option.some.injEq] at h
      obtain ⟨rfl, -, rfl⟩ := h
      exact ⟨0, by simp, by simp [okOptions, herr]⟩
    · rename_i herr
      obtain ⟨k, hk, hs⟩ := ih _ _ _ h
      refine ⟨k + 1, by simp [hk], ?_⟩
      rw [hs, okOptions_succ]
      have : i + 1 + k = i + (k + 1) := by omega
      simp [this, herr]

/-- The validator loop only adds validator calls to the trace. -/
theorem runValidators_trace {W P : Type} (vds : List (Validator W P)) (i : Nat) (pl : Option P)
    (s : St W) :
    ∃ evs, (runValidators vds i pl s).2.trace = s.trace ++ evs ∧
      ∀ e ∈ evs, e.isValidate = true := by
  induction vds generalizing i s with
  | nil => exact ⟨[], by simp [runValidators]⟩
  | cons vd rest ih =>
    simp only [runValidators]
    split
    · exact ⟨[Event.validate i (vd pl s.world).1], by simp, by simp [Event.isValidate]⟩
    · obtain ⟨evs, h1, h2⟩ := ih (i + 1)
        { world := (vd pl s.world).2, trace := s.trace ++ [Event.validate i (vd pl s.world).1] }
      refine ⟨Event.validate i (vd pl s.world).1 :: evs, ?_, ?_⟩
      · rw [h1]; simp
      · intro e he
        rcases List.mem_cons.mp he with rfl | he
        · rfl
        · exact h2 e he

/-- The claims-decoding step adds one decode event and then only validator calls; a nil
result means the decoder itself returned nil. -/
theorem decode_trace {W P : Type} (rt : RawToken W P) (cd : Codec W P) (payload : P)
    (s : St W) :
    ∃ res evs, (rt.decode cd payload s).2.trace = s.trace ++ Event.decode rt.claims res :: evs ∧
      (∀ e ∈ evs, e.isValidate = true) ∧ ((rt.decode cd payload s).1 = none → res = none) := by
  simp only [RawToken.decode]
  split
  · rename_i err herr
    exact ⟨some err, [], by simp [herr], by simp, by simp⟩
  · rename_i herr
    obtain ⟨evs, h1, h2⟩ := runValidators_trace rt.vds 0 rt.pl
      { world := (cd.claims rt.claims payload s.world).2,
        trace := s.trace ++ [Event.decode rt.claims (cd.claims rt.claims payload s.world).1] }
    exact ⟨none, evs, by rw [h1]; simp [herr], h2, fun _ => rfl⟩

/-- Options that leave an observation of the world alone leave it alone as a loop. -/
theorem runOpts_frame {W P V : Type} (read : W → V) (opts : List (VerifyOption W P))
    (hO : ∀ o ∈ opts, ∀ rt w, read (o rt w).2.2 = read w) (i : Nat) (rt : RawToken W P)
    (s : St W) : read (runOpts opts i rt s).2.2.world = read s.world := by
  induction opts generalizing i rt s with
  | nil => rfl
  | cons o rest ih =>
    simp only [runOpts]
    split
    · exact hO o (List.mem_cons_self _ _) rt s.world
    · rw [ih (fun o1 h1 => hO o1 (List.mem_cons_of_mem _ h1))]
      exact hO o (List.mem_cons_self _ _) rt s.world

/-- Options that leave a field of the token alone leave it alone as a loop. -/
theorem runOpts_keeps {W P B : Type} (f : RawToken W P → B) (opts : List (VerifyOption W P))
    (hO : ∀ o ∈ opts, ∀ rt w, f (o rt w).2.1 = f rt) (i : Nat) (rt : RawToken W P)
    (s : St W) : f (runOpts opts i rt s).2.1 = f rt := by
  induction opts generalizing i rt s with
  | nil => rfl
  | cons o rest ih =>
    simp only [runOpts]
    split
    · exact hO o (List.mem_cons_self _ _) rt s.world
    · rw [ih (fun o1 h1 => hO o1 (List.mem_cons_of_mem _ h1))]
      exact hO o (List.mem_cons_self _ _) rt s.world

/-- Options that leave the header alone leave it alone as a loop. -/
theorem runOpts_hd {W P : Type} (opts : List (VerifyOption W P))
    (hO : ∀ o ∈ opts, ∀ rt w, (o rt w).2.1.hd = rt.hd) (i : Nat) (rt : RawToken W P)
    (s : St W) : (runOpts opts i rt s).2.1.hd = rt.hd := by
  induction opts generalizing i rt s with
  | nil => rfl
  | cons o rest ih =>
    simp only [runOpts]
    split
    · exact hO o (List.mem_cons_self _ _) rt s.world
    · rw [ih (fun o1 h1 => hO o1 (List.mem_cons_of_mem _ h1))]
      exact hO o (List.mem_cons_self _ _) rt s.world

theorem resolveStep_frame {W V : Type} (read : W → V) (alg : Algorithm W)
    (hR : ∀ rv, alg.Resolve = some rv → ∀ hd w, read (rv hd w).2 = read w) (hd : Header)
    (s : St W) : read (resolveStep alg hd s).2.world = read s.world := by
  unfold resolveStep
  split
  · rename_i rv h
    exact hR rv h hd s.world
  · rfl

theorem decodeHeader_eq {W P : Type} (rt : RawToken W P) (cd : Codec W P) (s : St W) :
    rt.decodeHeader cd s =
      ((cd.header rt.header rt.hd).1, { rt with hd := (cd.header rt.header rt.hd).2 },
        { world := s.world,
          trace := s.trace ++ [Event.decodeHeader rt.header (cd.header rt.header rt.hd).1] }) :=
  rfl

/-! ## `Verify`, stage by stage -/

section Stages

variable {W P : Type} (cd : Codec W P) (token : List Byte) (alg : Algorithm W) (payload : P)
  (opts : List (VerifyOption W P)) (w : W)

theorem Verify_malformed
    (h : IndexByte token dot < 0 ∨ IndexByte (sliceFrom token (IndexByte token dot + 1)) dot < 0) :
    Verify cd token alg payload opts w = ({}, some Error.ErrMalformed, St.init w) := by
  unfold Verify
  rcases h with h | h
  · simp [h, RawToken.new]
  · by_cases h1 : IndexByte token dot < 0
    · simp [h1, RawToken.new]
    · simp [h1, h, RawToken.new]

variable (h1 : 0 ≤ IndexByte token dot)
  (h2 : 0 ≤ IndexByte (sliceFrom token (IndexByte token dot + 1)) dot)
include h1 h2

theorem Verify_headerErr {rt1 : RawToken W P} {s1 : St W} {e : Error}
    (hA : (framed token alg).decodeHeader cd (St.init w) = (some e, rt1, s1)) :
    Verify cd token alg payload opts w = (rt1.hd, some e, s1) := by
  have h1' : ¬ IndexByte token dot < 0 := by omega
  have h2' : ¬ IndexByte (sliceFrom token (IndexByte token dot + 1)) dot < 0 := by omega
  unfold framed at hA
  unfold Verify
  simp only [h1', h2', if_false, hA]

theorem Verify_resolveErr {rt1 : RawToken W P} {s1 s2 : St W} {e : Error}
    (hA : (framed token alg).decodeHeader cd (St.init w) = (none, rt1, s1))
    (hB : resolveStep alg rt1.hd s1 = (some e, s2)) :
    Verify cd token alg payload opts w = (rt1.hd, some e, s2) := by
  have h1' : ¬ IndexByte token dot < 0 := by omega
  have h2' : ¬ IndexByte (sliceFrom token (IndexByte token dot + 1)) dot < 0 := by omega
  unfold framed at hA
  unfold Verify
  simp only [h1', h2', if_false, hA, hB]

theorem Verify_optErr {rt1 rt3 : RawToken W P} {s1 s2 s3 : St W} {e : Error}
    (hA : (framed token alg).decodeHeader cd (St.init w) = (none, rt1, s1))
    (hB : resolveStep alg rt1.hd s1 = (none, s2))
    (hC : runOpts opts 0 rt1 s2 = (some e, rt3, s3)) :
    Verify cd token alg payload opts w = (rt3.hd, some e, s3) := by
  have h1' : ¬ IndexByte token dot < 0 := by omega
  have h2' : ¬ IndexByte (sliceFrom token (IndexByte token dot + 1)) dot < 0 := by omega
  unfold framed at hA
  unfold Verify
  simp only [h1', h2', if_false, hA, hB, hC]

theorem Verify_sigErr {rt1 rt3 : RawToken W P} {s1 s2 s3 s4 : St W} {e : Error}
    (hA : (framed token alg).decodeHeader cd (St.init w) = (none, rt1, s1))
    (hB : resolveStep alg rt1.hd s1 = (none, s2))
    (hC : runOpts opts 0 rt1 s2 = (none, rt3, s3))
    (hD : callVerify alg rt3.headerPayload rt3.sig s3 = (some e, s4)) :
    Verify cd token alg payload opts w = (rt3.hd, some e, s4) := by
  have h1' : ¬ IndexByte token dot < 0 := by omega
  have h2' : ¬ IndexByte (sliceFrom token (IndexByte token dot + 1)) dot < 0 := by omega
  unfold framed at hA
  unfold Verify
  simp only [h1', h2', if_false, hA, hB, hC, hD]

theorem Verify_decoded {rt1 rt3 : RawToken W P} {s1 s2 s3 s4 : St W}
    (hA : (framed token alg).decodeHeader cd (St.init w) = (none, rt1, s1))
    (hB : resolveStep alg rt1.hd s1 = (none, s2))
    (hC : runOpts opts 0 rt1 s2 = (none, rt3, s3))
    (hD : callVerify alg rt3.headerPayload rt3.sig s3 = (none, s4)) :
    Verify cd token alg payload opts w =
      (rt3.hd, (rt3.decode cd payload s4).1, (rt3.decode cd payload s4).2) := by
  have h1' : ¬ IndexByte token dot < 0 := by omega
  have h2' : ¬ IndexByte (sliceFrom token (IndexByte token dot + 1)) dot < 0 := by omega
  unfold framed at hA
  unfold Verify
  simp only [h1', h2', if_false, hA, hB, hC, hD]

end Stages

/-! ## What each stage adds to the trace -/

theorem decodeHeader_result {W P : Type} {rt rt1 : RawToken W P} {cd : Codec W P} {s s1 : St W}
    {res : error} (hA : rt.decodeHeader cd s = (res, rt1, s1)) :
    s1.trace = s.trace ++ [Event.decodeHeader rt.header res] ∧ s1.world = s.world ∧
      res = (cd.header rt.header rt.hd).1 ∧ rt1.hd = (cd.header rt.header rt.hd).2 := by
  rw [decodeHeader_eq] at hA
  simp only [Prod.mk.injEq] at hA
  obtain ⟨rfl, rfl, rfl⟩ := hA
  exact ⟨rfl, rfl, rfl, rfl⟩

theorem resolveStep_result {W : Type} {alg : Algorithm W} {hd : Header} {s s2 : St W}
    {res : error} (hB : resolveStep alg hd s = (res, s2)) :
    (alg.Resolve = none ∧ s2 = s ∧ res = none) ∨
      ∃ rv, alg.Resolve = some rv ∧ s2.trace = s.trace ++ [Event.resolve hd res] ∧
        rv hd s.world = (res, s2.world) := by
  unfold resolveStep at hB
  split at hB
  · rename_i rv h
    right
    simp only [callResolve, Prod.mk.injEq] at hB
    obtain ⟨rfl, rfl⟩ := hB
    exact ⟨rv, h, rfl, rfl⟩
  · rename_i h
    left
    simp only [Prod.mk.injEq] at hB
    exact ⟨h, hB.2.symm, hB.1.symm⟩

theorem callVerify_result {W : Type} {alg : Algorithm W} {hp sg : List Byte} {s s4 : St W}
    {res : error} (hD : callVerify alg hp sg s = (res, s4)) :
    s4.trace = s.trace ++ [Event.algVerify hp sg res] ∧
      alg.Verify hp sg s.world = (res, s4.world) := by
  simp only [callVerify, Prod.mk.injEq] at hD
  obtain ⟨rfl, rfl⟩ := hD
  exact ⟨rfl, rfl⟩

/-- Up to the end of the option loop the trace holds one header decode, at most one `Resolve`
and the option calls, all of which returned nil. -/
theorem lead_trace {W P : Type} {cd : Codec W P} {token : List Byte} {alg : Algorithm W}
    {opts : List (VerifyOption W P)} {w : W} {rt1 rt3 : RawToken W P} {s1 s2 s3 : St W}
    (hA : (framed token alg).decodeHeader cd (St.init w) = (none, rt1, s1))
    (hB : resolveStep alg rt1.hd s1 = (none, s2))
    (hC : runOpts opts 0 rt1 s2 = (none, rt3, s3)) :
    (s3.trace = Event.decodeHeader (framed token alg : RawToken W P).header none ::
        okOptions 0 opts.length ∧ alg.Resolve = none) ∨
      (s3.trace = Event.decodeHeader (framed token alg : RawToken W P).header none ::
        Event.resolve rt1.hd none :: okOptions 0 opts.length ∧ alg.Resolve ≠ none) := by
  obtain ⟨t1, -, -, -⟩ := decodeHeader_result hA
  have t3 := runOpts_none _ _ _ _ _ _ hC
  rcases resolveStep_result hB with ⟨hn, rfl, -⟩ | ⟨rv, hrv, t2, -⟩
  · left
    rw [t3, t1]
    simp [St.init, hn]
  · right
    rw [t3, t2, t1]
    simp [St.init, hrv]

theorem lead_clean {W P : Type} {cd : Codec W P} {token : List Byte} {alg : Algorithm W}
    {opts : List (VerifyOption W P)} {w : W} {rt1 rt3 : RawToken W P} {s1 s2 s3 : St W}
    (hA : (framed token alg).decodeHeader cd (St.init w) = (none, rt1, s1))
    (hB : resolveStep alg rt1.hd s1 = (none, s2))
    (hC : runOpts opts 0 rt1 s2 = (none, rt3, s3)) :
    ∀ ev ∈ s3.trace, ev.isAlgVerify = false ∧ ev.isDecode = false ∧ ev.isValidate = false := by
  intro ev hev
  rcases lead_trace hA hB hC with ⟨t, -⟩ | ⟨t, -⟩
  · rw [t] at hev
    rcases List.mem_cons.mp hev with rfl | hev
    · exact ⟨rfl, rfl, rfl⟩
    · obtain ⟨j, -, rfl⟩ := mem_okOptions hev
      exact ⟨rfl, rfl, rfl⟩
  · rw [t] at hev
    rcases List.mem_cons.mp hev with rfl | hev
    · exact ⟨rfl, rfl, rfl⟩
    · rcases List.mem_cons.mp hev with rfl | hev
      · exact ⟨rfl, rfl, rfl⟩
      · obtain ⟨j, -, rfl⟩ := mem_okOptions hev
        exact ⟨rfl, rfl, rfl⟩

/-- The trace of a failed option loop, with what precedes it, holds no `alg.Verify`, no claims
decode and no validator call. -/
theorem optErr_clean {W P : Type} {cd : Codec W P} {token : List Byte} {alg : Algorithm W}
    {opts : List (VerifyOption W P)} {w : W} {rt1 rt3 : RawToken W P} {s1 s2 s3 : St W}
    {res : error} {e : Error}
    (hA : (framed token alg).decodeHeader cd (St.init w) = (res, rt1, s1))
    (hB : resolveStep alg rt1.hd s1 = (none, s2))
    (hC : runOpts opts 0 rt1 s2 = (some e, rt3, s3)) :
    ∀ ev ∈ s3.trace, ev.isAlgVerify = false ∧ ev.isDecode = false ∧ ev.isValidate = false := by
  intro ev hev
  obtain ⟨t1, -, -, -⟩ := decodeHeader_result hA
  obtain ⟨k, -, t3⟩ := runOpts_some _ _ _ _ _ _ _ hC
  have t2 : ∀ ev ∈ s2.trace,
      ev.isAlgVerify = false ∧ ev.isDecode = false ∧ ev.isValidate = false := by
    intro ev hev
    rcases resolveStep_result hB with ⟨-, rfl, -⟩ | ⟨rv, -, t2, -⟩
    · rw [t1] at hev
      simp only [St.init, List.nil_append, List.mem_singleton] at hev
      subst hev
      exact ⟨rfl, rfl, rfl⟩
    · rw [t2, t1] at hev
      simp only [St.init, List.nil_append, List.mem_append, List.mem_singleton,
        List.mem_cons, List.not_mem_nil, or_false] at hev
      rcases hev with rfl | rfl <;> exact ⟨rfl, rfl, rfl⟩
  rw [t3] at hev
  simp only [List.mem_append, List.mem_singleton] at hev
  rcases hev with (hev | hev) | rfl
  · exact t2 ev hev
  · obtain ⟨j, -, rfl⟩ := mem_okOptions hev
    exact ⟨rfl, rfl, rfl⟩
  · exact ⟨rfl, rfl, rfl⟩

/-- The option loop over `pre ++ rest` is the loop over `pre` followed, when that ends without
error, by the loop over `rest`. -/
theorem runOpts_append {W P : Type} (pre rest : List (VerifyOption W P)) (i : Nat)
    (rt : RawToken W P) (s : St W) :
    runOpts (pre ++ rest) i rt s =
      match runOpts pre i rt s with
      | (some e, rt1, s1) => (some e, rt1, s1)
      | (none, rt1, s1) => runOpts rest (i + pre.length) rt1 s1 := by
  induction pre generalizing i rt s with
  | nil => simp [runOpts]
  | cons o pre ih =>
    simp only [List.cons_append, runOpts, List.length_cons]
    split
    · rfl
    · rw [show pre.append rest = pre ++ rest from rfl, ih]
      have : i + 1 + pre.length = i + (pre.length + 1) := by omega
      rw [this]

/-- The option loop only adds option calls to the trace. -/
theorem runOpts_trace {W P : Type} (opts : List (VerifyOption W P)) (i : Nat)
    (rt : RawToken W P) (s : St W) :
    ∃ evs, (runOpts opts i rt s).2.2.trace = s.trace ++ evs ∧
      ∀ ev ∈ evs, ev.isOption = true := by
  induction opts generalizing i rt s with
  | nil => exact ⟨[], by simp [runOpts]⟩
  | cons o rest ih =>
    simp only [runOpts]
    split
    · exact ⟨[Event.option i (o rt s.world).1], by simp, by simp [Event.isOption]⟩
    · obtain ⟨evs, h1, h2⟩ := ih (i + 1) (o rt s.world).2.1
        { world := (o rt s.world).2.2, trace := s.trace ++ [Event.option i (o rt s.world).1] }
      refine ⟨Event.option i (o rt s.world).1 :: evs, ?_, ?_⟩
      · rw [h1]; simp
      · intro e he
        rcases List.mem_cons.mp he with rfl | he
        · rfl
        · exact h2 e he

/-- After the `Resolve` step, `Verify` adds neither a header decode nor a `Resolve` call. -/
theorem Verify_tail {W P : Type} (cd : Codec W P) (token : List Byte)
    (alg : Algorithm W) (payload : P) (opts : List (VerifyOption W P)) (w : W)
    {rt1 : RawToken W P} {s1 s2 : St W}
    (h1 : 0 ≤ IndexByte token dot)
    (h2 : 0 ≤ IndexByte (sliceFrom token (IndexByte token dot + 1)) dot)
    (hA : (framed token alg).decodeHeader cd (St.init w) = (none, rt1, s1))
    (hB : resolveStep alg rt1.hd s1 = (none, s2)) :
    ∃ post, (Verify cd token alg payload opts w).2.2.trace = s2.trace ++ post ∧
      ∀ ev ∈ post, ev.isResolve = false ∧ ev.isDecodeHeader = false := by
  obtain ⟨evs, t3, hevs⟩ := runOpts_trace opts 0 rt1 s2
  have hopt : ∀ ev ∈ evs, ev.isResolve = false ∧ ev.isDecodeHeader = false := by
    intro ev hev
    have := hevs ev hev
    cases ev <;> simp_all [Event.isOption, Event.isResolve, Event.isDecodeHeader]
  rcases hC : runOpts opts 0 rt1 s2 with ⟨_ | e, rt3, s3⟩
  swap
  · rw [Verify_optErr cd token alg payload opts w h1 h2 hA hB hC]
    rw [hC] at t3
    exact ⟨evs, t3, hopt⟩
  rw [hC] at t3
  simp only at t3
  rcases hD : callVerify alg rt3.headerPayload rt3.sig s3 with ⟨_ | e, s4⟩
  swap
  · rw [Verify_sigErr cd token alg payload opts w h1 h2 hA hB hC hD]
    obtain ⟨t4, -⟩ := callVerify_result hD
    refine ⟨evs ++ [Event.algVerify rt3.headerPayload rt3.sig (some e)], ?_, ?_⟩
    · simp only [t4, t3, List.append_assoc]
    · intro ev hev
      rcases List.mem_append.mp hev with hev | hev
      · exact hopt ev hev
      · rw [List.mem_singleton.mp hev]; exact ⟨rfl, rfl⟩
  rw [Verify_decoded cd token alg payload opts w h1 h2 hA hB hC hD]
  obtain ⟨t4, -⟩ := callVerify_result hD
  obtain ⟨res, vevs, t5, hvevs, -⟩ := decode_trace rt3 cd payload s4
  refine ⟨evs ++ Event.algVerify rt3.headerPayload rt3.sig none ::
    Event.decode rt3.claims res :: vevs, ?_, ?_⟩
  · simp only [t5, t4, t3, List.append_assoc, List.singleton_append]
  · intro ev hev
    rcases List.mem_append.mp hev with hev | hev
    · exact hopt ev hev
    · rcases List.mem_cons.mp hev with rfl | hev
      · exact ⟨rfl, rfl⟩
      · rcases List.mem_cons.mp hev with rfl | hev
        · exact ⟨rfl, rfl⟩
        · have := hvevs ev hev
          cases ev <;> simp_all [Event.isValidate, Event.isResolve, Event.isDecodeHeader]

/-! ## The segments of a framed token -/

theorem IndexByte_append (a r : List Byte) (c : Byte) (ha : c ∉ a) :
    IndexByte (a ++ c :: r) c = a.length := by
  induction a with
  | nil => simp [IndexByte]
  | cons x xs ih =>
    simp only [List.mem_cons, not_or] at ha
    have hx : ¬ x = c := fun h => ha.1 h.symm
    have := ih ha.2
    show IndexByte (x :: (xs ++ c :: r)) c = _
    simp only [IndexByte, hx, if_false, this, List.length_cons]
    push_cast
    split_ifs <;> omega

/-- A token with both delimiters is a header segment, the delimiter, a claims segment, the
delimiter and the rest, and the two offsets are the lengths of the two segments. -/
theorem framed_decomp (token : List Byte) (h1 : 0 ≤ IndexByte token dot)
    (h2 : 0 ≤ IndexByte (sliceFrom token (IndexByte token dot + 1)) dot) :
    ∃ a b sg, token = a ++ dot :: (b ++ dot :: sg) ∧ dot ∉ a ∧ dot ∉ b ∧
      IndexByte token dot = a.length ∧
      IndexByte (sliceFrom token (IndexByte token dot + 1)) dot = b.length := by
  obtain ⟨e1, n1⟩ := IndexByte_split token dot h1
  obtain ⟨e2, n2⟩ := IndexByte_split _ dot h2
  have ht : (IndexByte token dot + 1).toNat = (IndexByte token dot).toNat + 1 := by omega
  have hs : sliceFrom token (IndexByte token dot + 1) =
      List.drop ((IndexByte token dot).toNat + 1) token := by
    unfold sliceFrom; rw [ht]
  refine ⟨List.take (IndexByte token dot).toNat token,
    List.take (IndexByte (sliceFrom token (IndexByte token dot + 1)) dot).toNat
      (sliceFrom token (IndexByte token dot + 1)),
    List.drop ((IndexByte (sliceFrom token (IndexByte token dot + 1)) dot).toNat + 1)
      (sliceFrom token (IndexByte token dot + 1)), ?_, n1, n2, ?_, ?_⟩
  · rw [← e2, hs]; exact e1
  · have hl : (IndexByte token dot).toNat ≤ token.length := by
      have := IndexByte_lt_length token dot
      omega
    rw [List.length_take, Nat.min_eq_left hl]
    omega
  · have hl : (IndexByte (sliceFrom token (IndexByte token dot + 1)) dot).toNat ≤
        (sliceFrom token (IndexByte token dot + 1)).length := by
      have := IndexByte_lt_length (sliceFrom token (IndexByte token dot + 1)) dot
      omega
    rw [List.length_take, Nat.min_eq_left hl]
    omega

/-- The offsets and the four views of a token given as its segments. -/
theorem framed_segments {W P : Type} (alg : Algorithm W) (a b sg : List Byte)
    (ha : dot ∉ a) (hb : dot ∉ b) :
    IndexByte (a ++ dot :: (b ++ dot :: sg)) dot = a.length ∧
      IndexByte (sliceFrom (a ++ dot :: (b ++ dot :: sg)) ((a.length : Int) + 1)) dot =
        b.length ∧
      (framed (a ++ dot :: (b ++ dot :: sg)) alg : RawToken W P).header = a ∧
      (framed (a ++ dot :: (b ++ dot :: sg)) alg : RawToken W P).claims = b ∧
      (framed (a ++ dot :: (b ++ dot :: sg)) alg : RawToken W P).headerPayload =
        a ++ dot :: b ∧
      (framed (a ++ dot :: (b ++ dot :: sg)) alg : RawToken W P).sig = sg := by
  have e1 := IndexByte_append a (b ++ dot :: sg) dot ha
  have t1 : ((a.length : Int) + 1).toNat = a.length + 1 := by omega
  have hs : sliceFrom (a ++ dot :: (b ++ dot :: sg)) ((a.length : Int) + 1) =
      b ++ dot :: sg := by
    unfold sliceFrom
    rw [t1]
    simp
  have e2 : IndexByte (sliceFrom (a ++ dot :: (b ++ dot :: sg)) ((a.length : Int) + 1)) dot =
      b.length := by
    rw [hs]; exact IndexByte_append b sg dot hb
  have t2 : ((a.length : Int) + 1 + (b.length : Int)).toNat = a.length + 1 + b.length := by
    omega
  have t3 : ((a.length : Int) + 1 + (b.length : Int) + 1).toNat =
      a.length + 1 + b.length + 1 := by omega
  have hfr : (framed (a ++ dot :: (b ++ dot :: sg)) alg : RawToken W P) =
      (RawToken.new alg).setToken (a ++ dot :: (b ++ dot :: sg)) a.length b.length := by
    unfold framed
    rw [e1, e2]
  refine ⟨e1, e2, ?_, ?_, ?_, ?_⟩
  · rw [hfr]
    simp [RawToken.header, RawToken.setToken, slice]
  · rw [hfr]
    simp only [RawToken.claims, RawToken.setToken, slice, t1, t2]
    rw [show a ++ dot :: (b ++ dot :: sg) = (a ++ [dot] ++ b) ++ dot :: sg by simp]
    rw [List.take_left' (by simp; omega)]
    rw [show a ++ [dot] ++ b = (a ++ [dot]) ++ b by simp]
    rw [List.drop_left' (by simp)]
  · rw [hfr]
    simp only [RawToken.headerPayload, RawToken.setToken, slice, t2, Int.toNat_zero,
      List.drop_zero]
    rw [show a ++ dot :: (b ++ dot :: sg) = (a ++ dot :: b) ++ dot :: sg by simp]
    rw [List.take_left' (by simp; omega)]
  · rw [hfr]
    simp only [RawToken.sig, RawToken.setToken, sliceFrom, t3]
    rw [show a ++ dot :: (b ++ dot :: sg) = (a ++ dot :: b ++ [dot]) ++ sg by simp]
    rw [List.drop_left' (by simp; omega)]

/-- Two lists that agree as `segment, delimiter, rest` agree segment by segment. -/
theorem segments_unique (a a1 b b1 : List Byte) (ha : dot ∉ a) (ha1 : dot ∉ a1)
    (h : a ++ dot :: b = a1 ++ dot :: b1) : a = a1 ∧ b = b1 := by
  have hl : (a.length : Int) = a1.length := by
    rw [← IndexByte_append a b dot ha, ← IndexByte_append a1 b1 dot ha1, h]
  have hl' : a.length = a1.length := by exact_mod_cast hl
  have := List.append_inj h hl'
  exact ⟨this.1, (List.cons.inj this.2).2⟩

/-- A successful `ParseToken` returns the framed token. -/
theorem ParseToken_ok {W P : Type} {token : List Byte} {alg : Algorithm W} {rt : RawToken W P}
    (hP : ParseToken token alg = (rt, none)) :
    rt = framed token alg ∧ 0 ≤ IndexByte token dot ∧
      0 ≤ IndexByte (sliceFrom token (IndexByte token dot + 1)) dot := by
  unfold ParseToken at hP
  by_cases h1 : IndexByte token dot < 0
  · simp [h1] at hP
  · by_cases h2 : IndexByte (sliceFrom token (IndexByte token dot + 1)) dot < 0
    · simp [h1, h2] at hP
    · simp only [h1, h2, if_false, Prod.mk.injEq, and_true] at hP
      exact ⟨hP.symm, by omega, by omega⟩

/-- The claims-decoding step of a token with no validator attached is the decoder alone. -/
theorem decode_no_validators {W P : Type} (rt : RawToken W P) (cd : Codec W P) (payload : P)
    (s : St W) (h : rt.vds = []) :
    rt.decode cd payload s =
      ((cd.claims rt.claims payload s.world).1,
        { world := (cd.claims rt.claims payload s.world).2,
          trace := s.trace ++
            [Event.decode rt.claims (cd.claims rt.claims payload s.world).1] }) := by
  unfold RawToken.decode
  rw [h]
  simp only [runValidators]
  split
  · rename_i err herr
    rw [herr]
  · rename_i herr
    rw [herr]

/-- `DecodeToken` on a framed token, written out: header decode, `Resolve` if implemented,
claims decode, the first error returned. -/
theorem DecodeToken_framed {W P : Type} (cd : Codec W P) (token : List Byte)
    (alg : Algorithm W) (payload : P) (s : St W) :
    (framed token alg : RawToken W P).DecodeToken cd payload s =
      match (cd.header (framed token alg : RawToken W P).header {}).1 with
      | some e =>
        (some e,
          { world := s.world,
            trace := s.trace ++
              [Event.decodeHeader (framed token alg : RawToken W P).header (some e)] })
      | none =>
        match resolveStep alg (cd.header (framed token alg : RawToken W P).header {}).2
            { world := s.world,
              trace := s.trace ++
                [Event.decodeHeader (framed token alg : RawToken W P).header none] } with
        | (some e, s2) => (some e, s2)
        | (none, s2) =>
          ((cd.claims (framed token alg : RawToken W P).claims payload s2.world).1,
            { world := (cd.claims (framed token alg : RawToken W P).claims payload s2.world).2,
              trace := s2.trace ++
                [Event.decode (framed token alg : RawToken W P).claims
                  (cd.claims (framed token alg : RawToken W P).claims payload s2.world).1] }) := by
  have hhd : (framed token alg : RawToken W P).hd = {} := rfl
  unfold RawToken.DecodeToken
  rw [decodeHeader_eq, hhd]
  rcases hh : (cd.header (framed token alg : RawToken W P).header {}).1 with _ | e
  · simp only
    have halg : (framed token alg : RawToken W P).alg = alg := rfl
    rw [halg]
    rcases hB : resolveStep alg (cd.header (framed token alg : RawToken W P).header {}).2
        { world := s.world,
          trace := s.trace ++
            [Event.decodeHeader (framed token alg : RawToken W P).header none] }
      with ⟨_ | e, s2⟩
    · simp only
      rw [decode_no_validators _ cd payload s2 rfl]
      rfl
    · rfl
  · rfl

/-! ## The claims -/

/-- Every run of `Verify` either never reaches the claims decoder, or its trace is some calls
that are neither `alg.Verify` nor a decode, then the one call of `alg.Verify`, which returned
nil, then the one claims decode, then validator calls only. -/
theorem Verify_trace_cases {W P : Type} (cd : Codec W P) (token : List Byte)
    (alg : Algorithm W) (payload : P) (opts : List (VerifyOption W P)) (w : W) :
    ((Verify cd token alg payload opts w).2.1 ≠ none ∧
        ∀ ev ∈ (Verify cd token alg payload opts w).2.2.trace, ev.isDecode = false) ∨
      ∃ pre hp sg seg res post,
        (Verify cd token alg payload opts w).2.2.trace =
            pre ++ Event.algVerify hp sg none :: Event.decode seg res :: post ∧
          (∀ ev ∈ pre, ev.isAlgVerify = false ∧ ev.isDecode = false) ∧
          (∀ ev ∈ post, ev.isAlgVerify = false ∧ ev.isDecode = false) ∧
          ((Verify cd token alg payload opts w).2.1 = none → res = none) := by
  by_cases h1 : IndexByte token dot < 0
  · left; rw [Verify_malformed _ _ _ _ _ _ (Or.inl h1)]; simp [St.init]
  by_cases h2 : IndexByte (sliceFrom token (IndexByte token dot + 1)) dot < 0
  · left; rw [Verify_malformed _ _ _ _ _ _ (Or.inr h2)]; simp [St.init]
  have h1' : 0 ≤ IndexByte token dot := by omega
  have h2' : 0 ≤ IndexByte (sliceFrom token (IndexByte token dot + 1)) dot := by omega
  rcases hA : (framed token alg : RawToken W P).decodeHeader cd (St.init w)
    with ⟨_ | e, rt1, s1⟩
  swap
  · left
    rw [Verify_headerErr cd token alg payload opts w h1' h2' hA]
    obtain ⟨t1, -⟩ := decodeHeader_result hA
    refine ⟨by simp, fun ev hev => ?_⟩
    simp only [t1, St.init, List.nil_append, List.mem_singleton] at hev
    subst hev; rfl
  rcases hB : resolveStep alg rt1.hd s1 with ⟨_ | e, s2⟩
  swap
  · left
    rw [Verify_resolveErr cd token alg payload opts w h1' h2' hA hB]
    obtain ⟨t1, -⟩ := decodeHeader_result hA
    refine ⟨by simp, fun ev hev => ?_⟩
    rcases resolveStep_result hB with ⟨-, -, h⟩ | ⟨rv, -, t2, -⟩
    · cases h
    · simp only [t2, t1, St.init, List.nil_append, List.mem_append, List.mem_singleton,
        List.mem_cons, List.not_mem_nil, or_false] at hev
      rcases hev with rfl | rfl <;> rfl
  rcases hC : runOpts opts 0 rt1 s2 with ⟨_ | e, rt3, s3⟩
  swap
  · left
    rw [Verify_optErr cd token alg payload opts w h1' h2' hA hB hC]
    exact ⟨by simp, fun ev hev => (optErr_clean hA hB hC ev hev).2.1⟩
  have hpre := lead_clean hA hB hC
  rcases hD : callVerify alg rt3.headerPayload rt3.sig s3 with ⟨_ | e, s4⟩
  swap
  · left
    rw [Verify_sigErr cd token alg payload opts w h1' h2' hA hB hC hD]
    obtain ⟨t4, -⟩ := callVerify_result hD
    refine ⟨by simp, fun ev hev => ?_⟩
    simp only [t4, List.mem_append, List.mem_singleton] at hev
    rcases hev with hev | rfl
    · exact (hpre ev hev).2.1
    · rfl
  right
  rw [Verify_decoded cd token alg payload opts w h1' h2' hA hB hC hD]
  obtain ⟨t4, -⟩ := callVerify_result hD
  obtain ⟨res, evs, t5, hevs, hres⟩ := decode_trace rt3 cd payload s4
  refine ⟨s3.trace, rt3.headerPayload, rt3.sig, rt3.claims, res, evs, ?_,
    fun ev hev => ⟨(hpre ev hev).1, (hpre ev hev).2.1⟩, fun ev hev => ?_, hres⟩
  · simp only [t5, t4, List.append_assoc, List.singleton_append]
  · have := hevs ev hev
    cases ev <;> simp_all [Event.isValidate, Event.isAlgVerify, Event.isDecode]

/-- C2: if `Verify` returns a nil error, then its trace holds exactly one call of
`alg.Verify`, that call returned nil, and the claims decode comes right after it; and in no
run at all is there a claims decode that is not directly preceded by the one call of
`alg.Verify`, returning nil. -/
theorem Verify_decodes_only_after_signature {W P : Type} (cd : Codec W P) (token : List Byte)
    (alg : Algorithm W) (payload : P) (opts : List (VerifyOption W P)) (w : W) :
    ((Verify cd token alg payload opts w).2.1 = none →
        ∃ pre hp sg seg post,
          (Verify cd token alg payload opts w).2.2.trace =
              pre ++ Event.algVerify hp sg none :: Event.decode seg none :: post ∧
            (∀ ev ∈ pre, ev.isAlgVerify = false ∧ ev.isDecode = false) ∧
            (∀ ev ∈ post, ev.isAlgVerify = false ∧ ev.isDecode = false)) ∧
      ((∀ ev ∈ (Verify cd token alg payload opts w).2.2.trace, ev.isDecode = false) ∨
        ∃ pre hp sg seg res post,
          (Verify cd token alg payload opts w).2.2.trace =
              pre ++ Event.algVerify hp sg none :: Event.decode seg res :: post ∧
            (∀ ev ∈ pre, ev.isAlgVerify = false ∧ ev.isDecode = false) ∧
            (∀ ev ∈ post, ev.isAlgVerify = false ∧ ev.isDecode = false)) := by
  rcases Verify_trace_cases cd token alg payload opts w with
    ⟨hne, hno⟩ | ⟨pre, hp, sg, seg, res, post, ht, hpre, hpost, hres⟩
  · exact ⟨fun h => absurd h hne, Or.inl hno⟩
  · refine ⟨fun h => ?_, Or.inr ⟨pre, hp, sg, seg, res, post, ht, hpre, hpost⟩⟩
    have := hres h
    subst this
    exact ⟨pre, hp, sg, seg, post, ht, hpre, hpost⟩

/-- C2 at a token that verifies: on `a.b.s` the run of `Verify` returns nil and its trace has
the successful `alg.Verify` directly before the claims decode. -/
theorem Verify_decodes_only_after_signature_witness :
    (Verify sampleCodec goodToken sampleAlg () [] 0).2.1 = none ∧
      ∃ pre hp sg seg post,
        (Verify sampleCodec goodToken sampleAlg () [] 0).2.2.trace =
            pre ++ Event.algVerify hp sg none :: Event.decode seg none :: post ∧
          (∀ ev ∈ pre, ev.isAlgVerify = false ∧ ev.isDecode = false) ∧
          (∀ ev ∈ post, ev.isAlgVerify = false ∧ ev.isDecode = false) :=
  ⟨rfl, (Verify_decodes_only_after_signature sampleCodec goodToken sampleAlg () [] 0).1 rfl⟩

/-- C3: on a well-framed token whose header decodes, whose `Resolve` (if any) succeeds and
whose options all return nil, an error `e` from `alg.Verify` is what `Verify` returns,
unmodified, together with the header held by the token (the decoded header, when the options
leave the header alone); the trace holds no claims decode and no validator call; and whatever
the collaborators `Resolve`, the options and `alg.Verify` leave alone in the world, the claims
destination for one, is as it was before the call. -/
theorem Verify_signature_error {W P : Type} (cd : Codec W P) (token : List Byte)
    (alg : Algorithm W) (payload : P) (opts : List (VerifyOption W P)) (w : W)
    (rt1 rt3 : RawToken W P) (s1 s2 s3 : St W) (e : Error) (w4 : W)
    (h1 : 0 ≤ IndexByte token dot)
    (h2 : 0 ≤ IndexByte (sliceFrom token (IndexByte token dot + 1)) dot)
    (hA : (framed token alg).decodeHeader cd (St.init w) = (none, rt1, s1))
    (hB : resolveStep alg rt1.hd s1 = (none, s2))
    (hC : runOpts opts 0 rt1 s2 = (none, rt3, s3))
    (hD : alg.Verify rt3.headerPayload rt3.sig s3.world = (some e, w4)) :
    Verify cd token alg payload opts w =
        (rt3.hd, some e,
          { world := w4,
            trace := s3.trace ++ [Event.algVerify rt3.headerPayload rt3.sig (some e)] }) ∧
      (∀ ev ∈ s3.trace ++ [Event.algVerify rt3.headerPayload rt3.sig (some e)],
        ev.isDecode = false ∧ ev.isValidate = false) ∧
      ((∀ o ∈ opts, ∀ rt v, (o rt v).2.1.hd = rt.hd) →
        rt3.hd = (cd.header (framed token alg : RawToken W P).header {}).2) ∧
      (∀ (V : Type) (read : W → V),
        (∀ rv, alg.Resolve = some rv → ∀ hd v, read (rv hd v).2 = read v) →
        (∀ o ∈ opts, ∀ rt v, read (o rt v).2.2 = read v) →
        (∀ a b v, read (alg.Verify a b v).2 = read v) →
        read w4 = read w) := by
  have hD' : callVerify alg rt3.headerPayload rt3.sig s3 =
      (some e, { world := w4,
                 trace := s3.trace ++ [Event.algVerify rt3.headerPayload rt3.sig (some e)] }) := by
    simp [callVerify, hD]
  obtain ⟨-, w1, -, hd1⟩ := decodeHeader_result hA
  refine ⟨Verify_sigErr cd token alg payload opts w h1 h2 hA hB hC hD', ?_, ?_, ?_⟩
  · intro ev hev
    rcases List.mem_append.mp hev with hev | hev
    · exact (lead_clean hA hB hC ev hev).2
    · rw [List.mem_singleton.mp hev]; exact ⟨rfl, rfl⟩
  · intro hO
    have := runOpts_hd opts hO 0 rt1 s2
    rw [hC] at this
    rw [this, hd1]
    rfl
  · intro V read hR hO hV
    have e4 : read w4 = read s3.world := by
      have := hV rt3.headerPayload rt3.sig s3.world
      rw [hD] at this
      exact this
    have e3 : read s3.world = read s2.world := by
      have := runOpts_frame read opts hO 0 rt1 s2
      rw [hC] at this
      exact this
    have e2 : read s2.world = read s1.world := by
      have := resolveStep_frame read alg hR rt1.hd s1
      rw [hB] at this
      exact this
    rw [e4, e3, e2, w1]
    rfl

/-- C3 at the token `a.b.x` with `ValidateHeader` installed: the signature error is
returned with the decoded header, and the destination still holds `7`. -/
theorem Verify_signature_error_witness :
    Verify sampleCodec badSigToken sampleAlg () [ValidateHeader] 7 =
      ({ Algorithm := "HS256" }, some (Error.other 1),
        { world := 7,
          trace := [Event.decodeHeader [97] none, Event.option 0 none,
            Event.algVerify [97, 46, 98] [120] (some (Error.other 1))] }) :=
  (Verify_signature_error sampleCodec badSigToken sampleAlg () [ValidateHeader] 7
    _ _ _ _ _ _ _ (by decide) (by decide) rfl rfl rfl rfl).1

/-- C4: on a well-framed token whose header decodes and whose `Resolve` (if any) succeeds,
with an option list holding `ValidateHeader` after options that all return nil: if the
header's `Algorithm` field differs from `alg.Name()` where `ValidateHeader` compares them,
`Verify` returns `ErrAlgValidation`, and its trace holds no call of `alg.Verify`, no claims
decode and no validator call. The header and the algorithm compared are the decoded header
and `alg` whenever the options before `ValidateHeader` leave those two fields alone. -/
theorem Verify_alg_mismatch {W P : Type} (cd : Codec W P) (token : List Byte)
    (alg : Algorithm W) (payload : P) (before after : List (VerifyOption W P)) (w : W)
    (rt1 rt2 : RawToken W P) (s1 s2 s3 : St W)
    (h1 : 0 ≤ IndexByte token dot)
    (h2 : 0 ≤ IndexByte (sliceFrom token (IndexByte token dot + 1)) dot)
    (hA : (framed token alg).decodeHeader cd (St.init w) = (none, rt1, s1))
    (hB : resolveStep alg rt1.hd s1 = (none, s2))
    (hC : runOpts before 0 rt1 s2 = (none, rt2, s3))
    (hne : (rt2.alg.Name s3.world).1 ≠ rt2.hd.Algorithm) :
    Verify cd token alg payload (before ++ ValidateHeader :: after) w =
        (rt2.hd, some Error.ErrAlgValidation,
          { world := (rt2.alg.Name s3.world).2,
            trace := s3.trace ++ [Event.option before.length (some Error.ErrAlgValidation)] }) ∧
      (∀ ev ∈ s3.trace ++ [Event.option before.length (some Error.ErrAlgValidation)],
        ev.isAlgVerify = false ∧ ev.isDecode = false ∧ ev.isValidate = false) ∧
      ((∀ o ∈ before, ∀ rt v, (o rt v).2.1.hd = rt.hd ∧ (o rt v).2.1.alg = rt.alg) →
        rt2.hd = (cd.header (framed token alg : RawToken W P).header {}).2 ∧ rt2.alg = alg) := by
  have hC' : runOpts (before ++ ValidateHeader :: after) 0 rt1 s2 =
      (some Error.ErrAlgValidation, rt2,
        { world := (rt2.alg.Name s3.world).2,
          trace := s3.trace ++ [Event.option before.length (some Error.ErrAlgValidation)] }) := by
    rw [runOpts_append, hC]
    simp [runOpts, ValidateHeader, hne]
  refine ⟨Verify_optErr cd token alg payload _ w h1 h2 hA hB hC', ?_, ?_⟩
  · intro ev hev
    rcases List.mem_append.mp hev with hev | hev
    · exact lead_clean hA hB hC ev hev
    · rw [List.mem_singleton.mp hev]; exact ⟨rfl, rfl, rfl⟩
  · intro hO
    obtain ⟨-, -, -, hd1⟩ := decodeHeader_result hA
    have halg1 : rt1.alg = alg := by
      rw [decodeHeader_eq] at hA
      simp only [Prod.mk.injEq] at hA
      rw [← hA.2.1]
      rfl
    have k1 := runOpts_keeps (fun r => r.hd) before (fun o ho rt v => (hO o ho rt v).1) 0 rt1 s2
    have k2 := runOpts_keeps (fun r => r.alg) before (fun o ho rt v => (hO o ho rt v).2) 0 rt1 s2
    rw [hC] at k1 k2
    simp only at k1 k2
    rw [k1, k2, hd1, halg1]
    exact ⟨rfl, rfl⟩

/-- C4 at the token `a.b.s`, whose header says `HS256`, verified with an algorithm named
`none`: `ValidateHeader`, second in the list, stops the run before `alg.Verify`. -/
theorem Verify_alg_mismatch_witness :
    Verify sampleCodec goodToken resolvingAlg ()
        ([ValidatePayload none []] ++ ValidateHeader :: [failingOption]) 7 =
      ({ Algorithm := "HS256" }, some Error.ErrAlgValidation,
        { world := 7,
          trace := [Event.decodeHeader [97] none, Event.resolve { Algorithm := "HS256" } none,
            Event.option 0 none, Event.option 1 (some Error.ErrAlgValidation)] }) :=
  (Verify_alg_mismatch sampleCodec goodToken resolvingAlg () [ValidatePayload none []]
    [failingOption] 7 _ _ _ _ _ (by decide) (by decide) rfl rfl rfl (by decide)).1

/-- C5: on a token that reaches the option stage (well framed, header decoded, `Resolve`
passed), nothing before the loop is an option call, an `alg.Verify` or a claims decode. If
the loop ends with an error `e`, `Verify` returns `e` and its trace ends with the options
`0 .. k-1` returning nil, each once and in index order, and option `k` returning `e`, for
some `k` below the number of options: no later option, no `alg.Verify`, no claims decode. If
the loop ends without error, all the options were called once each, in index order, then
`alg.Verify`, and no option after it. Each option is applied to the one `RawToken` of the
call, as the options before it left it. -/
theorem Verify_options_in_order {W P : Type} (cd : Codec W P) (token : List Byte)
    (alg : Algorithm W) (payload : P) (opts : List (VerifyOption W P)) (w : W)
    (rt1 : RawToken W P) (s1 s2 : St W)
    (h1 : 0 ≤ IndexByte token dot)
    (h2 : 0 ≤ IndexByte (sliceFrom token (IndexByte token dot + 1)) dot)
    (hA : (framed token alg).decodeHeader cd (St.init w) = (none, rt1, s1))
    (hB : resolveStep alg rt1.hd s1 = (none, s2)) :
    (∀ ev ∈ s2.trace, ev.isOption = false ∧ ev.isAlgVerify = false ∧ ev.isDecode = false) ∧
      (∀ e rt3 s3, runOpts opts 0 rt1 s2 = (some e, rt3, s3) →
        Verify cd token alg payload opts w = (rt3.hd, some e, s3) ∧
          ∃ k, k < opts.length ∧
            s3.trace = s2.trace ++ okOptions 0 k ++ [Event.option k (some e)]) ∧
      (∀ rt3 s3, runOpts opts 0 rt1 s2 = (none, rt3, s3) →
        ∃ res post,
          (Verify cd token alg payload opts w).2.2.trace =
              s2.trace ++ okOptions 0 opts.length ++
                Event.algVerify rt3.headerPayload rt3.sig res :: post ∧
            ∀ ev ∈ post, ev.isOption = false ∧ ev.isAlgVerify = false) ∧
      (∀ before o after rt2 s3, opts = before ++ o :: after →
        runOpts before 0 rt1 s2 = (none, rt2, s3) →
        runOpts opts 0 rt1 s2 =
          match (o rt2 s3.world).1 with
          | some err =>
            (some err, (o rt2 s3.world).2.1,
              { world := (o rt2 s3.world).2.2,
                trace := s3.trace ++ [Event.option before.length (o rt2 s3.world).1] })
          | none =>
            runOpts after (before.length + 1) (o rt2 s3.world).2.1
              { world := (o rt2 s3.world).2.2,
                trace := s3.trace ++ [Event.option before.length (o rt2 s3.world).1] }) := by
  obtain ⟨t1, -, -, -⟩ := decodeHeader_result hA
  refine ⟨?_, ?_, ?_, ?_⟩
  rotate_left 3
  · intro before o after rt2 s3 ho hC
    rw [ho, runOpts_append, hC]
    simp [runOpts]
  · intro ev hev
    rcases resolveStep_result hB with ⟨-, rfl, -⟩ | ⟨rv, -, t2, -⟩
    · simp only [t1, St.init, List.nil_append, List.mem_singleton] at hev
      subst hev; exact ⟨rfl, rfl, rfl⟩
    · simp only [t2, t1, St.init, List.nil_append, List.mem_append, List.mem_singleton,
        List.mem_cons, List.not_mem_nil, or_false] at hev
      rcases hev with rfl | rfl <;> exact ⟨rfl, rfl, rfl⟩
  · intro e rt3 s3 hC
    refine ⟨Verify_optErr cd token alg payload opts w h1 h2 hA hB hC, ?_⟩
    obtain ⟨k, hk, t3⟩ := runOpts_some _ _ _ _ _ _ _ hC
    exact ⟨k, hk, by simpa using t3⟩
  · intro rt3 s3 hC
    have t3 := runOpts_none _ _ _ _ _ _ hC
    rcases hD : callVerify alg rt3.headerPayload rt3.sig s3 with ⟨_ | e, s4⟩
    · rw [Verify_decoded cd token alg payload opts w h1 h2 hA hB hC hD]
      obtain ⟨t4, -⟩ := callVerify_result hD
      obtain ⟨res, evs, t5, hevs, -⟩ := decode_trace rt3 cd payload s4
      refine ⟨none, Event.decode rt3.claims res :: evs, ?_, ?_⟩
      · simp only [t5, t4, t3, List.append_assoc, List.singleton_append]
      · intro ev hev
        rcases List.mem_cons.mp hev with rfl | hev
        · exact ⟨rfl, rfl⟩
        · have := hevs ev hev
          cases ev <;> simp_all [Event.isValidate, Event.isAlgVerify, Event.isOption]
    · rw [Verify_sigErr cd token alg payload opts w h1 h2 hA hB hC hD]
      obtain ⟨t4, -⟩ := callVerify_result hD
      exact ⟨some e, [], by simp only [t4, t3], by simp⟩

/-- C5 at the token `a.b.s` with the options `ValidateHeader`, a failing option and
`ValidateHeader` again: the second option's error is returned and the third is not called. -/
theorem Verify_options_in_order_witness :
    Verify sampleCodec goodToken sampleAlg ()
        [ValidateHeader, failingOption, ValidateHeader] 7 =
      ({ Algorithm := "HS256" }, some (Error.other 4),
        { world := 7,
          trace := [Event.decodeHeader [97] none, Event.option 0 none,
            Event.option 1 (some (Error.other 4))] }) :=
  ((Verify_options_in_order sampleCodec goodToken sampleAlg ()
    [ValidateHeader, failingOption, ValidateHeader] 7 _ _ _ (by decide) (by decide) rfl rfl).2.1
      _ _ _ rfl).1

/-- C6: a malformed token makes no call at all. On a well-framed token: when the header
decode fails, its error is returned and the trace is that decode alone, `Resolve` not called;
when it succeeds and `alg` implements `Resolver`, the trace starts with the header decode and
then the one call of `Resolve`, on the decoded header, and everything after (options,
`alg.Verify`, claims decode) is neither a header decode nor a `Resolve`; an error `e` from
`Resolve` is returned by `Verify` and ends the trace there; when `alg` does not implement
`Resolver`, the step changes nothing and no `Resolve` is in the trace. -/
theorem Verify_resolve_once {W P : Type} (cd : Codec W P) (token : List Byte)
    (alg : Algorithm W) (payload : P) (opts : List (VerifyOption W P)) (w : W) :
    ((IndexByte token dot < 0 ∨
        IndexByte (sliceFrom token (IndexByte token dot + 1)) dot < 0) →
      (Verify cd token alg payload opts w).2.2.trace = []) ∧
    (0 ≤ IndexByte token dot →
      0 ≤ IndexByte (sliceFrom token (IndexByte token dot + 1)) dot →
      (∀ e, (cd.header (framed token alg : RawToken W P).header {}).1 = some e →
        Verify cd token alg payload opts w =
          ((cd.header (framed token alg : RawToken W P).header {}).2, some e,
            { world := w,
              trace := [Event.decodeHeader (framed token alg : RawToken W P).header
                (some e)] })) ∧
      ((cd.header (framed token alg : RawToken W P).header {}).1 = none →
        ∀ rv, alg.Resolve = some rv →
          (∃ post,
            (Verify cd token alg payload opts w).2.2.trace =
                Event.decodeHeader (framed token alg : RawToken W P).header none ::
                  Event.resolve (cd.header (framed token alg : RawToken W P).header {}).2
                    (rv (cd.header (framed token alg : RawToken W P).header {}).2 w).1 ::
                  post ∧
              ∀ ev ∈ post, ev.isResolve = false ∧ ev.isDecodeHeader = false) ∧
          ∀ e, (rv (cd.header (framed token alg : RawToken W P).header {}).2 w).1 = some e →
            Verify cd token alg payload opts w =
              ((cd.header (framed token alg : RawToken W P).header {}).2, some e,
                { world := (rv (cd.header (framed token alg : RawToken W P).header {}).2 w).2,
                  trace := [Event.decodeHeader (framed token alg : RawToken W P).header none,
                    Event.resolve (cd.header (framed token alg : RawToken W P).header {}).2
                      (some e)] })) ∧
      ((cd.header (framed token alg : RawToken W P).header {}).1 = none →
        alg.Resolve = none →
          (∀ hd s, resolveStep alg hd s = (none, s)) ∧
          ∃ post,
            (Verify cd token alg payload opts w).2.2.trace =
                Event.decodeHeader (framed token alg : RawToken W P).header none :: post ∧
              ∀ ev ∈ post, ev.isResolve = false ∧ ev.isDecodeHeader = false)) := by
  refine ⟨fun h => by rw [Verify_malformed _ _ _ _ _ _ h]; rfl, fun h1 h2 => ?_⟩
  have hA := decodeHeader_eq (framed token alg : RawToken W P) cd (St.init w)
  have hhd : (framed token alg : RawToken W P).hd = {} := rfl
  rw [hhd] at hA
  refine ⟨fun e he => ?_, fun hok rv hrv => ?_, fun hok hnone => ?_⟩
  · rw [he] at hA
    rw [Verify_headerErr cd token alg payload opts w h1 h2 hA]
    simp [St.init]
  · rw [hok] at hA
    have hB : resolveStep alg (cd.header (framed token alg : RawToken W P).header {}).2
        { world := w,
          trace := [Event.decodeHeader (framed token alg : RawToken W P).header none] } =
        ((rv (cd.header (framed token alg : RawToken W P).header {}).2 w).1,
          { world := (rv (cd.header (framed token alg : RawToken W P).header {}).2 w).2,
            trace := [Event.decodeHeader (framed token alg : RawToken W P).header none,
              Event.resolve (cd.header (framed token alg : RawToken W P).header {}).2
                (rv (cd.header (framed token alg : RawToken W P).header {}).2 w).1] }) := by
      simp [resolveStep, hrv, callResolve]
    have herr : ∀ e,
        (rv (cd.header (framed token alg : RawToken W P).header {}).2 w).1 = some e →
        Verify cd token alg payload opts w =
          ((cd.header (framed token alg : RawToken W P).header {}).2, some e,
            { world := (rv (cd.header (framed token alg : RawToken W P).header {}).2 w).2,
              trace := [Event.decodeHeader (framed token alg : RawToken W P).header none,
                Event.resolve (cd.header (framed token alg : RawToken W P).header {}).2
                  (some e)] }) := by
      intro e he
      rw [he] at hB
      exact Verify_resolveErr cd token alg payload opts w h1 h2 hA hB
    refine ⟨?_, herr⟩
    rcases hres : (rv (cd.header (framed token alg : RawToken W P).header {}).2 w).1
      with _ | e
    · rw [hres] at hB
      obtain ⟨post, ht, hpost⟩ := Verify_tail cd token alg payload opts w h1 h2 hA hB
      exact ⟨post, by simpa using ht, hpost⟩
    · rw [herr e hres]
      exact ⟨[], rfl, by simp⟩
  · rw [hok] at hA
    have hstep : ∀ hd s, resolveStep alg hd s = (none, s) := by
      intro hd s; simp [resolveStep, hnone]
    obtain ⟨post, ht, hpost⟩ :=
      Verify_tail cd token alg payload opts w h1 h2 hA (hstep _ _)
    exact ⟨hstep, post, by simpa [St.init] using ht, hpost⟩

/-- C6 at the token `a.b.s` with an algorithm whose `Resolve` fails: `Verify` returns that
error after the header decode and the one `Resolve`, the option is never called. -/
theorem Verify_resolve_once_witness :
    Verify sampleCodec goodToken unresolvedAlg () [failingOption] 7 =
      ({ Algorithm := "HS256" }, some (Error.other 2),
        { world := 7,
          trace := [Event.decodeHeader [97] none,
            Event.resolve { Algorithm := "HS256" } (some (Error.other 2))] }) :=
  ((((Verify_resolve_once sampleCodec goodToken unresolvedAlg () [failingOption] 7).2
    (by decide) (by decide)).2.1 rfl _ rfl).2 _ rfl)

/-- C7: on a `RawToken` that `ParseToken` returned, `DecodeToken` is the header decode, then
`Resolve` if `alg` implements `Resolver`, then the claims decode, and returns the first error
met; what it adds to the trace holds no `alg.Verify`, no option and no validator call; two
parsed tokens that agree up to the second delimiter, whatever their signature segments, give
the same result; and on the token `a.b.x`, whose signature the sample algorithm rejects so
that `Verify` fails, `DecodeToken` returns nil. -/
theorem DecodeToken_without_verification {W P : Type} (cd : Codec W P)
    (token token1 : List Byte) (alg : Algorithm W) (payload : P) (s : St W)
    (rt rt1 : RawToken W P)
    (hP : ParseToken token alg = (rt, none)) (hP1 : ParseToken token1 alg = (rt1, none))
    (hsame : rt1.headerPayload = rt.headerPayload) :
    rt.DecodeToken cd payload s =
        (match (cd.header rt.header {}).1 with
        | some e =>
          (some e,
            { world := s.world, trace := s.trace ++ [Event.decodeHeader rt.header (some e)] })
        | none =>
          match resolveStep alg (cd.header rt.header {}).2
              { world := s.world, trace := s.trace ++ [Event.decodeHeader rt.header none] } with
          | (some e, s2) => (some e, s2)
          | (none, s2) =>
            ((cd.claims rt.claims payload s2.world).1,
              { world := (cd.claims rt.claims payload s2.world).2,
                trace := s2.trace ++
                  [Event.decode rt.claims (cd.claims rt.claims payload s2.world).1] })) ∧
      (∃ evs, (rt.DecodeToken cd payload s).2.trace = s.trace ++ evs ∧
        ∀ ev ∈ evs, ev.isAlgVerify = false ∧ ev.isOption = false ∧ ev.isValidate = false) ∧
      rt1.DecodeToken cd payload s = rt.DecodeToken cd payload s ∧
      (((ParseToken badSigToken sampleAlg : RawToken Nat Unit × error).1.DecodeToken
          sampleCodec () (St.init 7)).1 = none ∧
        (Verify sampleCodec badSigToken sampleAlg () [] 7).2.1 = some (Error.other 1)) := by
  obtain ⟨rfl, h1, h2⟩ := ParseToken_ok hP
  obtain ⟨rfl, k1, k2⟩ := ParseToken_ok hP1
  have hform := DecodeToken_framed cd token alg payload s
  refine ⟨hform, ?_, ?_, ⟨rfl, rfl⟩⟩
  · rw [hform]
    rcases hh : (cd.header (framed token alg : RawToken W P).header {}).1 with _ | e
    · simp only
      rcases hB : resolveStep alg (cd.header (framed token alg : RawToken W P).header {}).2
          { world := s.world,
            trace := s.trace ++
              [Event.decodeHeader (framed token alg : RawToken W P).header none] }
        with ⟨_ | e, s2⟩
      · simp only
        rcases resolveStep_result hB with ⟨-, rfl, -⟩ | ⟨rv, -, t2, -⟩
        · refine ⟨[Event.decodeHeader (framed token alg : RawToken W P).header none,
            Event.decode (framed token alg : RawToken W P).claims
              (cd.claims (framed token alg : RawToken W P).claims payload s.world).1],
            by simp, ?_⟩
          intro ev hev
          simp only [List.mem_cons, List.not_mem_nil, or_false] at hev
          rcases hev with rfl | rfl <;> exact ⟨rfl, rfl, rfl⟩
        · refine ⟨[Event.decodeHeader (framed token alg : RawToken W P).header none,
            Event.resolve (cd.header (framed token alg : RawToken W P).header {}).2 none,
            Event.decode (framed token alg : RawToken W P).claims
              (cd.claims (framed token alg : RawToken W P).claims payload s2.world).1],
            by simp [t2], ?_⟩
          intro ev hev
          simp only [List.mem_cons, List.not_mem_nil, or_false] at hev
          rcases hev with rfl | rfl | rfl <;> exact ⟨rfl, rfl, rfl⟩
      · simp only
        rcases resolveStep_result hB with ⟨-, -, h⟩ | ⟨rv, -, t2, -⟩
        · cases h
        · refine ⟨[Event.decodeHeader (framed token alg : RawToken W P).header none,
            Event.resolve (cd.header (framed token alg : RawToken W P).header {}).2 (some e)],
            by simp [t2], ?_⟩
          intro ev hev
          simp only [List.mem_cons, List.not_mem_nil, or_false] at hev
          rcases hev with rfl | rfl <;> exact ⟨rfl, rfl, rfl⟩
    · refine ⟨[Event.decodeHeader (framed token alg : RawToken W P).header (some e)],
        rfl, ?_⟩
      intro ev hev
      rw [List.mem_singleton.mp hev]
      exact ⟨rfl, rfl, rfl⟩
  · obtain ⟨a, b, sg, rfl, ha, hb, -, -⟩ := framed_decomp token h1 h2
    obtain ⟨a1, b1, sg1, rfl, ha1, hb1, -, -⟩ := framed_decomp token1 k1 k2
    obtain ⟨-, -, eh, ec, ep, -⟩ := framed_segments (P := P) alg a b sg ha hb
    obtain ⟨-, -, eh1, ec1, ep1, -⟩ := framed_segments (P := P) alg a1 b1 sg1 ha1 hb1
    rw [ep, ep1] at hsame
    obtain ⟨rfl, rfl⟩ := segments_unique a1 a b1 b ha1 ha hsame
    rw [hform, DecodeToken_framed cd _ alg payload s, eh, ec, eh1, ec1]

/-- C7 at the tokens `a.b.x` and `a.b.s`: both decode to the same result, a nil error, with
no call of `alg.Verify`. -/
theorem DecodeToken_without_verification_witness :
    (framed goodToken sampleAlg : RawToken Nat Unit).DecodeToken sampleCodec () (St.init 7) =
      (framed badSigToken sampleAlg : RawToken Nat Unit).DecodeToken sampleCodec ()
        (St.init 7) :=
  (DecodeToken_without_verification sampleCodec badSigToken goodToken sampleAlg () (St.init 7)
    _ _ rfl rfl rfl).2.2.1

/-- C8: `ValidateHeader` returns `ErrAlgValidation` exactly when `rt.alg.Name()` differs from
`rt.hd.Algorithm`, nil exactly when they are equal, and hands back `rt` as it was; the world
is what the call of `Name` left. -/
theorem ValidateHeader_iff {W P : Type} (rt : RawToken W P) (w : W) :
    ((ValidateHeader rt w).1 = some Error.ErrAlgValidation ↔
        (rt.alg.Name w).1 ≠ rt.hd.Algorithm) ∧
      ((ValidateHeader rt w).1 = none ↔ (rt.alg.Name w).1 = rt.hd.Algorithm) ∧
      (ValidateHeader rt w).2.1 = rt ∧
      (ValidateHeader rt w).2.2 = (rt.alg.Name w).2 := by
  unfold ValidateHeader
  by_cases h : (rt.alg.Name w).1 = rt.hd.Algorithm
  · simp [h]
  · simp [h]

/-- C9: when `ParseToken` succeeds, the token it returns is `RawToken{alg}` after
`setToken(token, sep1, sep2)` with `sep1` the index of the first `'.'` and `sep2` the index
of the first `'.'` of `token[sep1+1:]`, and `0 ≤ sep1 < sep1 + 1 + sep2 < len(token)`. -/
theorem ParseToken_offsets {W P : Type} (token : List Byte) (alg : Algorithm W)
    (rt : RawToken W P) (hP : ParseToken token alg = (rt, none)) :
    rt = (RawToken.new alg).setToken token (IndexByte token dot)
        (IndexByte (sliceFrom token (IndexByte token dot + 1)) dot) ∧
      0 ≤ IndexByte token dot ∧
      IndexByte token dot <
        IndexByte token dot + 1 + IndexByte (sliceFrom token (IndexByte token dot + 1)) dot ∧
      IndexByte token dot + 1 + IndexByte (sliceFrom token (IndexByte token dot + 1)) dot <
        token.length := by
  obtain ⟨hrt, h1, h2⟩ := ParseToken_ok hP
  obtain ⟨a, b, sg, ht, -, -, e1, e2⟩ := framed_decomp token h1 h2
  refine ⟨hrt, h1, by omega, ?_⟩
  have hl : token.length = a.length + 1 + (b.length + 1 + sg.length) := by
    rw [ht]; simp; omega
  rw [e2, e1, hl]
  push_cast
  omega

/-- C9 at the token `a.b.s`: the offsets handed to `setToken` are `1` and `1`, and
`0 ≤ 1 < 3 < 5`. -/
theorem ParseToken_offsets_witness :
    (framed goodToken sampleAlg : RawToken Nat Unit) =
        (RawToken.new sampleAlg).setToken goodToken (IndexByte goodToken dot)
          (IndexByte (sliceFrom goodToken (IndexByte goodToken dot + 1)) dot) ∧
      0 ≤ IndexByte goodToken dot ∧
      IndexByte goodToken dot <
        IndexByte goodToken dot + 1 +
          IndexByte (sliceFrom goodToken (IndexByte goodToken dot + 1)) dot ∧
      IndexByte goodToken dot + 1 +
          IndexByte (sliceFrom goodToken (IndexByte goodToken dot + 1)) dot <
        goodToken.length :=
  ParseToken_offsets goodToken sampleAlg (framed goodToken sampleAlg) rfl

/-- C10: when `ParseToken` succeeds, the token it returns holds the raw bytes and the two
offsets stored by `setToken`, and these satisfy `0 ≤ sep1 < sep2 < len(raw)`; `Verify` frames
its token to the same `RawToken`. -/
theorem stored_offsets_ordered {W P : Type} (token : List Byte) (alg : Algorithm W)
    (rt : RawToken W P) (hP : ParseToken token alg = (rt, none)) :
    rt.token = token ∧ 0 ≤ rt.sep1 ∧ rt.sep1 < rt.sep2 ∧ rt.sep2 < rt.token.length := by
  obtain ⟨rfl, h1, h2⟩ := ParseToken_ok hP
  obtain ⟨a, b, sg, ht, -, -, e1, e2⟩ := framed_decomp token h1 h2
  have hl : token.length = a.length + 1 + (b.length + 1 + sg.length) := by
    rw [ht]; simp; omega
  refine ⟨rfl, h1, ?_, ?_⟩
  · show IndexByte token dot <
      IndexByte token dot + 1 + IndexByte (sliceFrom token (IndexByte token dot + 1)) dot
    omega
  · show IndexByte token dot + 1 + IndexByte (sliceFrom token (IndexByte token dot + 1)) dot <
      token.length
    rw [e2, e1, hl]
    push_cast
    omega

/-- C10 at the token `a.b.s`: the stored offsets are `1` and `3`, and `0 ≤ 1 < 3 < 5`. -/
theorem stored_offsets_ordered_witness :
    (framed goodToken sampleAlg : RawToken Nat Unit).token = goodToken ∧
      0 ≤ (framed goodToken sampleAlg : RawToken Nat Unit).sep1 ∧
      (framed goodToken sampleAlg : RawToken Nat Unit).sep1 <
        (framed goodToken sampleAlg : RawToken Nat Unit).sep2 ∧
      (framed goodToken sampleAlg : RawToken Nat Unit).sep2 <
        (framed goodToken sampleAlg : RawToken Nat Unit).token.length :=
  stored_offsets_ordered goodToken sampleAlg (framed goodToken sampleAlg) rfl

/-! ## Framing, continued -/

/-- On a well-framed token the first call of `Verify` is the header decode, on the header
segment. -/
theorem Verify_header_first {W P : Type} (cd : Codec W P) (token : List Byte)
    (alg : Algorithm W) (payload : P) (opts : List (VerifyOption W P)) (w : W)
    (h1 : 0 ≤ IndexByte token dot)
    (h2 : 0 ≤ IndexByte (sliceFrom token (IndexByte token dot + 1)) dot) :
    ∃ res post, (Verify cd token alg payload opts w).2.2.trace =
      Event.decodeHeader (framed token alg : RawToken W P).header res :: post := by
  rcases hA : (framed token alg : RawToken W P).decodeHeader cd (St.init w)
    with ⟨_ | e, rt1, s1⟩
  swap
  · rw [Verify_headerErr cd token alg payload opts w h1 h2 hA]
    obtain ⟨t1, -⟩ := decodeHeader_result hA
    exact ⟨some e, [], by simpa [St.init] using t1⟩
  obtain ⟨t1, -⟩ := decodeHeader_result hA
  rcases hB : resolveStep alg rt1.hd s1 with ⟨_ | e, s2⟩
  swap
  · rw [Verify_resolveErr cd token alg payload opts w h1 h2 hA hB]
    rcases resolveStep_result hB with ⟨-, -, h⟩ | ⟨rv, -, t2, -⟩
    · cases h
    · exact ⟨none, [Event.resolve rt1.hd (some e)], by simp [t2, t1, St.init]⟩
  obtain ⟨post, ht, -⟩ := Verify_tail cd token alg payload opts w h1 h2 hA hB
  rcases resolveStep_result hB with ⟨-, rfl, -⟩ | ⟨rv, -, t2, -⟩
  · exact ⟨none, post, by simp [ht, t1, St.init]⟩
  · exact ⟨none, Event.resolve rt1.hd none :: post, by simp [ht, t2, t1, St.init]⟩

/-- C11, as stated, fails: `a.b.c.d` holds three `'.'` bytes, yet `ParseToken` returns nil on
it and `Verify` gets as far as `alg.Verify`, whose error it returns, not `ErrMalformed`. -/
theorem four_parts_not_malformed :
    fourPartToken.count dot = 3 ∧
      (ParseToken fourPartToken sampleAlg : RawToken Nat Unit × error).2 = none ∧
      Verify sampleCodec fourPartToken sampleAlg () [] 7 =
        ({ Algorithm := "HS256" }, some (Error.other 1),
          { world := 7,
            trace := [Event.decodeHeader [97] none,
              Event.algVerify [97, 46, 98] [99, 46, 100] (some (Error.other 1))] }) ∧
      (Verify sampleCodec fourPartToken sampleAlg () [] 7).2.1 ≠ some Error.ErrMalformed := by
  refine ⟨by decide, by decide, rfl, by decide⟩

/-- C11, amended: with fewer than two `'.'` bytes `ParseToken` and `Verify` fail with
`ErrMalformed`, `Verify` with the zero header and no call made; with two or more, `ParseToken`
returns nil and `Verify` goes on to the header decode. -/
theorem malformed_iff_fewer_than_two {W P : Type} (cd : Codec W P) (token : List Byte)
    (alg : Algorithm W) (payload : P) (opts : List (VerifyOption W P)) (w : W) :
    (token.count dot < 2 →
        (ParseToken token alg : RawToken W P × error).2 = some Error.ErrMalformed ∧
          Verify cd token alg payload opts w = ({}, some Error.ErrMalformed, St.init w)) ∧
      (2 ≤ token.count dot →
        (ParseToken token alg : RawToken W P × error).2 = none ∧
          ∃ res post, (Verify cd token alg payload opts w).2.2.trace =
            Event.decodeHeader (framed token alg : RawToken W P).header res :: post) := by
  rcases framing_cases token with ⟨h1, hc⟩ | ⟨h1, h2, hc⟩ | ⟨h1, h2, hc⟩
  · refine ⟨fun _ => ⟨?_, Verify_malformed _ _ _ _ _ _ (Or.inl h1)⟩, fun h => by omega⟩
    simp [ParseToken, h1]
  · refine ⟨fun _ => ⟨?_, Verify_malformed _ _ _ _ _ _ (Or.inr h2)⟩, fun h => by omega⟩
    have h1' : ¬ IndexByte token dot < 0 := by omega
    simp [ParseToken, h1', h2]
  · refine ⟨fun h => by omega, fun _ => ⟨?_, Verify_header_first cd token alg payload opts w h1 h2⟩⟩
    have h1' : ¬ IndexByte token dot < 0 := by omega
    have h2' : ¬ IndexByte (sliceFrom token (IndexByte token dot + 1)) dot < 0 := by omega
    simp [ParseToken, h1', h2']

/-- C11, amended, at the token `a.b`, with one delimiter. -/
theorem malformed_iff_fewer_than_two_witness :
    (ParseToken [97, 46, 98] sampleAlg : RawToken Nat Unit × error).2 =
        some Error.ErrMalformed ∧
      Verify sampleCodec [97, 46, 98] sampleAlg () [failingOption] 7 =
        ({}, some Error.ErrMalformed, St.init 7) :=
  (malformed_iff_fewer_than_two sampleCodec [97, 46, 98] sampleAlg () [failingOption] 7).1
    (by decide)

theorem getElem_after_append (a r : List Byte) (c : Byte) : (a ++ c :: r)[a.length]? = some c := by
  rw [List.getElem?_append_right (Nat.le_refl _)]
  simp

/-- C15: when `ParseToken` succeeds, with `sep1` and `sep2` the two offsets it found:
`token[sep1]` and `token[sep1+1+sep2]` are `'.'`; the header segment `token[0:sep1]` and the
claims segment `token[sep1+1 : sep1+1+sep2]` hold no `'.'`, so these are the first and the
second delimiter; and header, `'.'`, claims, `'.'` and `token[sep1+1+sep2+1:]` make up the
token again. -/
theorem ParseToken_segments {W P : Type} (token : List Byte) (alg : Algorithm W)
    (rt : RawToken W P) (hP : ParseToken token alg = (rt, none)) :
    token[(IndexByte token dot).toNat]? = some dot ∧
      token[(IndexByte token dot + 1 +
        IndexByte (sliceFrom token (IndexByte token dot + 1)) dot).toNat]? = some dot ∧
      dot ∉ slice token 0 (IndexByte token dot) ∧
      dot ∉ slice token (IndexByte token dot + 1)
        (IndexByte token dot + 1 + IndexByte (sliceFrom token (IndexByte token dot + 1)) dot) ∧
      slice token 0 (IndexByte token dot) ++ dot ::
          (slice token (IndexByte token dot + 1)
              (IndexByte token dot + 1 +
                IndexByte (sliceFrom token (IndexByte token dot + 1)) dot) ++
            dot :: sliceFrom token
              (IndexByte token dot + 1 +
                IndexByte (sliceFrom token (IndexByte token dot + 1)) dot + 1)) =
        token := by
  obtain ⟨-, h1, h2⟩ := ParseToken_ok hP
  obtain ⟨a, b, sg, rfl, ha, hb, -, -⟩ := framed_decomp token h1 h2
  obtain ⟨e1, e2, eh, ec, -, es⟩ := framed_segments (P := P) alg a b sg ha hb
  have e2' : IndexByte (sliceFrom (a ++ dot :: (b ++ dot :: sg))
      (IndexByte (a ++ dot :: (b ++ dot :: sg)) dot + 1)) dot = b.length := by
    rw [e1]; exact e2
  have fh : (framed (a ++ dot :: (b ++ dot :: sg)) alg : RawToken W P).header =
      slice (a ++ dot :: (b ++ dot :: sg)) 0 (IndexByte (a ++ dot :: (b ++ dot :: sg)) dot) :=
    rfl
  have fc : (framed (a ++ dot :: (b ++ dot :: sg)) alg : RawToken W P).claims =
      slice (a ++ dot :: (b ++ dot :: sg)) (IndexByte (a ++ dot :: (b ++ dot :: sg)) dot + 1)
        (IndexByte (a ++ dot :: (b ++ dot :: sg)) dot + 1 +
          IndexByte (sliceFrom (a ++ dot :: (b ++ dot :: sg))
            (IndexByte (a ++ dot :: (b ++ dot :: sg)) dot + 1)) dot) := rfl
  have fs : (framed (a ++ dot :: (b ++ dot :: sg)) alg : RawToken W P).sig =
      sliceFrom (a ++ dot :: (b ++ dot :: sg))
        (IndexByte (a ++ dot :: (b ++ dot :: sg)) dot + 1 +
          IndexByte (sliceFrom (a ++ dot :: (b ++ dot :: sg))
            (IndexByte (a ++ dot :: (b ++ dot :: sg)) dot + 1)) dot + 1) := rfl
  rw [← fh, ← fc, ← fs, eh, ec, es, e2', e1]
  have t1 : ((a.length : Int)).toNat = a.length := by omega
  have t2 : ((a.length : Int) + 1 + (b.length : Int)).toNat = a.length + 1 + b.length := by
    omega
  refine ⟨?_, ?_, ha, hb, rfl⟩
  · rw [t1]; exact getElem_after_append a _ dot
  · rw [t2]
    have hl : a.length + 1 + b.length = (a ++ dot :: b).length := by simp; omega
    rw [show a ++ dot :: (b ++ dot :: sg) = (a ++ dot :: b) ++ dot :: sg by simp, hl]
    exact getElem_after_append _ sg dot

/-- C15 at the token `a.b.s`. -/
theorem ParseToken_segments_witness :
    goodToken[(IndexByte goodToken dot).toNat]? = some dot ∧
      goodToken[(IndexByte goodToken dot + 1 +
        IndexByte (sliceFrom goodToken (IndexByte goodToken dot + 1)) dot).toNat]? = some dot ∧
      dot ∉ slice goodToken 0 (IndexByte goodToken dot) ∧
      dot ∉ slice goodToken (IndexByte goodToken dot + 1)
        (IndexByte goodToken dot + 1 +
          IndexByte (sliceFrom goodToken (IndexByte goodToken dot + 1)) dot) ∧
      slice goodToken 0 (IndexByte goodToken dot) ++ dot ::
          (slice goodToken (IndexByte goodToken dot + 1)
              (IndexByte goodToken dot + 1 +
                IndexByte (sliceFrom goodToken (IndexByte goodToken dot + 1)) dot) ++
            dot :: sliceFrom goodToken
              (IndexByte goodToken dot + 1 +
                IndexByte (sliceFrom goodToken (IndexByte goodToken dot + 1)) dot + 1)) =
        goodToken :=
  ParseToken_segments goodToken sampleAlg (framed goodToken sampleAlg : RawToken Nat Unit) rfl

/-- C16: the option `ValidatePayload(pl, vds...)` returns nil on every `RawToken`, leaves the
world as it was (no validator is called: the result is the same whatever the validators do),
and hands back the token with `pl` and `vds` set and the raw bytes, the two offsets, the
header and the algorithm unchanged. -/
theorem ValidatePayload_effect {W P : Type} (pl : Option P) (vds : List (Validator W P))
    (rt : RawToken W P) (w : W) :
    (ValidatePayload pl vds rt w).1 = none ∧
      (ValidatePayload pl vds rt w).2.2 = w ∧
      (ValidatePayload pl vds rt w).2.1.pl = pl ∧
      (ValidatePayload pl vds rt w).2.1.vds = vds ∧
      (ValidatePayload pl vds rt w).2.1.token = rt.token ∧
      (ValidatePayload pl vds rt w).2.1.sep1 = rt.sep1 ∧
      (ValidatePayload pl vds rt w).2.1.sep2 = rt.sep2 ∧
      (ValidatePayload pl vds rt w).2.1.hd = rt.hd ∧
      (ValidatePayload pl vds rt w).2.1.alg = rt.alg ∧
      runOpts [ValidatePayload pl vds] 0 rt (St.init w) =
        (none, { rt with pl := pl, vds := vds },
          { world := w, trace := [Event.option 0 none] }) :=
  ⟨rfl, rfl, rfl, rfl, rfl, rfl, rfl, rfl, rfl, rfl⟩

/-- C18: `ValidatePayload(p1, vs1...)` followed by `ValidatePayload(p2, vs2...)` on the same
`RawToken` leaves `pl = p2` and `vds = vs2`, the token that `ValidatePayload(p2, vs2...)`
alone would leave: the later option overwrites, `p1` and `vs1` are gone. -/
theorem ValidatePayload_overwrites {W P : Type} (p1 p2 : Option P)
    (vs1 vs2 : List (Validator W P)) (rt : RawToken W P) (w : W) :
    (ValidatePayload p2 vs2 (ValidatePayload p1 vs1 rt w).2.1
        (ValidatePayload p1 vs1 rt w).2.2).2.1 = { rt with pl := p2, vds := vs2 } ∧
      (ValidatePayload p2 vs2 (ValidatePayload p1 vs1 rt w).2.1
        (ValidatePayload p1 vs1 rt w).2.2).2.1 = (ValidatePayload p2 vs2 rt w).2.1 ∧
      runOpts [ValidatePayload p1 vs1, ValidatePayload p2 vs2] 0 rt (St.init w) =
        (none, { rt with pl := p2, vds := vs2 },
          { world := w, trace := [Event.option 0 none, Event.option 1 none] }) :=
  ⟨rfl, rfl, rfl⟩

/-- C17: `Verify` frames a token as `ParseToken` does. `Verify` is `ParseToken` followed, on
an error, by the return of that error with the zero header, the world untouched and no call
made, and otherwise by the rest of the pipeline on the `RawToken` that `ParseToken` returned;
`Verify` returns `ErrMalformed` with the zero header and an empty trace exactly when
`ParseToken` returns `ErrMalformed`; and the token both hold after a successful split is
`RawToken{alg}` after `setToken` on the same `(token, sep1, sep2)`. -/
theorem Verify_frames_as_ParseToken {W P : Type} (cd : Codec W P) (token : List Byte)
    (alg : Algorithm W) (payload : P) (opts : List (VerifyOption W P)) (w : W) :
    Verify cd token alg payload opts w =
        (match (ParseToken token alg : RawToken W P × error) with
        | (rt, some e) => (rt.hd, some e, St.init w)
        | (rt, none) => verifyParsed cd rt alg payload opts (St.init w)) ∧
      ((ParseToken token alg : RawToken W P × error).2 = some Error.ErrMalformed ↔
        Verify cd token alg payload opts w = ({}, some Error.ErrMalformed, St.init w)) ∧
      ((ParseToken token alg : RawToken W P × error).2 = some Error.ErrMalformed ∨
        ((ParseToken token alg : RawToken W P × error) =
            ((RawToken.new alg).setToken token (IndexByte token dot)
              (IndexByte (sliceFrom token (IndexByte token dot + 1)) dot), none) ∧
          Verify cd token alg payload opts w =
            verifyParsed cd
              ((RawToken.new alg).setToken token (IndexByte token dot)
                (IndexByte (sliceFrom token (IndexByte token dot + 1)) dot))
              alg payload opts (St.init w))) := by
  by_cases h1 : IndexByte token dot < 0
  · have hv := Verify_malformed cd token alg payload opts w (Or.inl h1)
    have hp : (ParseToken token alg : RawToken W P × error) =
        (RawToken.new alg, some Error.ErrMalformed) := by simp [ParseToken, h1]
    rw [hp, hv]
    exact ⟨rfl, by simp, Or.inl rfl⟩
  by_cases h2 : IndexByte (sliceFrom token (IndexByte token dot + 1)) dot < 0
  · have hv := Verify_malformed cd token alg payload opts w (Or.inr h2)
    have hp : (ParseToken token alg : RawToken W P × error) =
        (RawToken.new alg, some Error.ErrMalformed) := by simp [ParseToken, h1, h2]
    rw [hp, hv]
    exact ⟨rfl, by simp, Or.inl rfl⟩
  have hp : (ParseToken token alg : RawToken W P × error) =
      ((RawToken.new alg).setToken token (IndexByte token dot)
        (IndexByte (sliceFrom token (IndexByte token dot + 1)) dot), none) := by
    simp [ParseToken, h1, h2]
  have hv : Verify cd token alg payload opts w =
      verifyParsed cd
        ((RawToken.new alg).setToken token (IndexByte token dot)
          (IndexByte (sliceFrom token (IndexByte token dot + 1)) dot))
        alg payload opts (St.init w) := by
    unfold Verify verifyParsed
    simp only [h1, h2, if_false]
  refine ⟨by rw [hp]; exact hv, ?_, Or.inr ⟨hp, hv⟩⟩
  rw [hp]
  constructor
  · intro h; cases h
  · intro h
    obtain ⟨res, post, ht⟩ :=
      Verify_header_first cd token alg payload opts w (by omega) (by omega)
    rw [h] at ht
    simp [St.init] at ht

/-! ## The call of `alg.Verify` -/

/-- After an option loop that ends without error, the next call is `alg.Verify` on the two
views of the token as the options left it, and it is the only call of `alg.Verify`. -/
theorem Verify_signature_call {W P : Type} (cd : Codec W P) (token : List Byte)
    (alg : Algorithm W) (payload : P) (opts : List (VerifyOption W P)) (w : W)
    {rt1 rt3 : RawToken W P} {s1 s2 s3 : St W}
    (h1 : 0 ≤ IndexByte token dot)
    (h2 : 0 ≤ IndexByte (sliceFrom token (IndexByte token dot + 1)) dot)
    (hA : (framed token alg).decodeHeader cd (St.init w) = (none, rt1, s1))
    (hB : resolveStep alg rt1.hd s1 = (none, s2))
    (hC : runOpts opts 0 rt1 s2 = (none, rt3, s3)) :
    ∃ res post,
      (Verify cd token alg payload opts w).2.2.trace =
          s3.trace ++ Event.algVerify rt3.headerPayload rt3.sig res :: post ∧
        (∀ ev ∈ s3.trace, ev.isAlgVerify = false) ∧ ∀ ev ∈ post, ev.isAlgVerify = false := by
  have hpre : ∀ ev ∈ s3.trace, ev.isAlgVerify = false :=
    fun ev hev => (lead_clean hA hB hC ev hev).1
  rcases hD : callVerify alg rt3.headerPayload rt3.sig s3 with ⟨_ | e, s4⟩
  · rw [Verify_decoded cd token alg payload opts w h1 h2 hA hB hC hD]
    obtain ⟨t4, -⟩ := callVerify_result hD
    obtain ⟨res, evs, t5, hevs, -⟩ := decode_trace rt3 cd payload s4
    refine ⟨none, Event.decode rt3.claims res :: evs, ?_, hpre, ?_⟩
    · simp only [t5, t4, List.append_assoc, List.singleton_append]
    · intro ev hev
      rcases List.mem_cons.mp hev with rfl | hev
      · rfl
      · have := hevs ev hev
        cases ev <;> simp_all [Event.isValidate, Event.isAlgVerify]
  · rw [Verify_sigErr cd token alg payload opts w h1 h2 hA hB hC hD]
    obtain ⟨t4, -⟩ := callVerify_result hD
    exact ⟨some e, [], by simp only [t4], hpre, by simp⟩

/-- Options that leave the raw bytes and the two offsets alone hand `alg.Verify` the views of
the framed token. -/
theorem views_kept {W P : Type} (cd : Codec W P) (token : List Byte) (alg : Algorithm W)
    (opts : List (VerifyOption W P)) (w : W) {rt1 rt3 : RawToken W P} {s1 s2 s3 : St W}
    (hA : (framed token alg).decodeHeader cd (St.init w) = (none, rt1, s1))
    (hC : runOpts opts 0 rt1 s2 = (none, rt3, s3))
    (hO : ∀ o ∈ opts, ∀ rt v, (o rt v).2.1.token = rt.token ∧
      (o rt v).2.1.sep1 = rt.sep1 ∧ (o rt v).2.1.sep2 = rt.sep2) :
    rt3.headerPayload = (framed token alg : RawToken W P).headerPayload ∧
      rt3.sig = (framed token alg : RawToken W P).sig := by
  have hrt1 : rt1 = { (framed token alg : RawToken W P) with
      hd := (cd.header (framed token alg : RawToken W P).header
        (framed token alg : RawToken W P).hd).2 } := by
    rw [decodeHeader_eq] at hA
    simp only [Prod.mk.injEq] at hA
    exact hA.2.1.symm
  have k1 := runOpts_keeps (fun r => r.token) opts (fun o ho rt v => (hO o ho rt v).1) 0 rt1 s2
  have k2 := runOpts_keeps (fun r => r.sep1) opts (fun o ho rt v => (hO o ho rt v).2.1) 0 rt1 s2
  have k3 := runOpts_keeps (fun r => r.sep2) opts (fun o ho rt v => (hO o ho rt v).2.2) 0 rt1 s2
  rw [hC] at k1 k2 k3
  simp only at k1 k2 k3
  rw [hrt1] at k1 k2 k3
  simp only [RawToken.headerPayload, RawToken.sig, k1, k2, k3]
  exact ⟨trivial, trivial⟩

/-- C12: on a token that reaches the signature step, the one call of `alg.Verify` has as first
argument the signing input of the token as the options left it; when the options leave the
raw bytes and the two offsets alone, that is `token[0 : sep1+1+sep2]`, which is the header
segment, the first `'.'` and the claims segment, and the token is this input, the second
`'.'` and the rest. No decoded value enters it. -/
theorem Verify_signing_input {W P : Type} (cd : Codec W P) (token : List Byte)
    (alg : Algorithm W) (payload : P) (opts : List (VerifyOption W P)) (w : W)
    (rt1 rt3 : RawToken W P) (s1 s2 s3 : St W)
    (h1 : 0 ≤ IndexByte token dot)
    (h2 : 0 ≤ IndexByte (sliceFrom token (IndexByte token dot + 1)) dot)
    (hA : (framed token alg).decodeHeader cd (St.init w) = (none, rt1, s1))
    (hB : resolveStep alg rt1.hd s1 = (none, s2))
    (hC : runOpts opts 0 rt1 s2 = (none, rt3, s3)) :
    (∃ sg res post,
        (Verify cd token alg payload opts w).2.2.trace =
            s3.trace ++ Event.algVerify rt3.headerPayload sg res :: post ∧
          (∀ ev ∈ s3.trace, ev.isAlgVerify = false) ∧ ∀ ev ∈ post, ev.isAlgVerify = false) ∧
      ((∀ o ∈ opts, ∀ rt v, (o rt v).2.1.token = rt.token ∧
          (o rt v).2.1.sep1 = rt.sep1 ∧ (o rt v).2.1.sep2 = rt.sep2) →
        rt3.headerPayload =
            slice token 0 (IndexByte token dot + 1 +
              IndexByte (sliceFrom token (IndexByte token dot + 1)) dot) ∧
          rt3.headerPayload =
            slice token 0 (IndexByte token dot) ++ dot ::
              slice token (IndexByte token dot + 1)
                (IndexByte token dot + 1 +
                  IndexByte (sliceFrom token (IndexByte token dot + 1)) dot) ∧
          token = rt3.headerPayload ++ dot ::
            sliceFrom token (IndexByte token dot + 1 +
              IndexByte (sliceFrom token (IndexByte token dot + 1)) dot + 1)) := by
  obtain ⟨res, post, ht, hpre, hpost⟩ :=
    Verify_signature_call cd token alg payload opts w h1 h2 hA hB hC
  refine ⟨⟨rt3.sig, res, post, ht, hpre, hpost⟩, fun hO => ?_⟩
  obtain ⟨hhp, -⟩ := views_kept cd token alg opts w hA hC hO
  rw [hhp]
  obtain ⟨a, b, sg, rfl, ha, hb, -, -⟩ := framed_decomp token h1 h2
  obtain ⟨-, -, eh, ec, ep, es⟩ := framed_segments (P := P) alg a b sg ha hb
  refine ⟨rfl, ?_, ?_⟩
  · rw [ep]
    exact congrArg₂ (fun x y => x ++ dot :: y) eh.symm ec.symm
  · rw [ep]
    have : a ++ dot :: (b ++ dot :: sg) =
        (a ++ dot :: b) ++ dot :: (framed (a ++ dot :: (b ++ dot :: sg)) alg : RawToken W P).sig := by
      rw [es]; simp
    exact this

/-- C12 at the token `a.b.s` with `ValidateHeader` installed: the signing input is `a.b`. -/
theorem Verify_signing_input_witness :
    ∃ sg res post,
      (Verify sampleCodec goodToken sampleAlg () [ValidateHeader] 7).2.2.trace =
          [Event.decodeHeader [97] none, Event.option 0 none] ++
            Event.algVerify [97, 46, 98] sg res :: post ∧
        (∀ ev ∈ [Event.decodeHeader [97] none, Event.option 0 none],
          ev.isAlgVerify = false) ∧
        ∀ ev ∈ post, ev.isAlgVerify = false :=
  (Verify_signing_input sampleCodec goodToken sampleAlg () [ValidateHeader] 7
    _ _ _ _ _ (by decide) (by decide) rfl rfl rfl).1

/-- C13, as stated, fails: on `a.b.QQ` the second argument of `alg.Verify` is `QQ`, the text
of the third segment as it stands in the token, and so differs from what any decoder that
takes `QQ` to the byte `A` makes of that segment. -/
theorem signature_passed_encoded :
    Verify sampleCodec encodedSigToken sampleAlg () [] 7 =
        ({ Algorithm := "HS256" }, some (Error.other 1),
          { world := 7,
            trace := [Event.decodeHeader [97] none,
              Event.algVerify [97, 46, 98] [81, 81] (some (Error.other 1))] }) ∧
      sliceFrom encodedSigToken (IndexByte encodedSigToken dot + 1 +
        IndexByte (sliceFrom encodedSigToken (IndexByte encodedSigToken dot + 1)) dot + 1) =
          [81, 81] ∧
      ∀ dec : List Byte → List Byte, dec [81, 81] = [65] →
        ([81, 81] : List Byte) ≠
          dec (sliceFrom encodedSigToken (IndexByte encodedSigToken dot + 1 +
            IndexByte (sliceFrom encodedSigToken (IndexByte encodedSigToken dot + 1)) dot + 1)) := by
  refine ⟨rfl, by decide, fun dec hdec => ?_⟩
  have : sliceFrom encodedSigToken (IndexByte encodedSigToken dot + 1 +
      IndexByte (sliceFrom encodedSigToken (IndexByte encodedSigToken dot + 1)) dot + 1) =
        [81, 81] := by decide
  rw [this, hdec]
  decide

/-- C13, amended: on a token that reaches the signature step, the one call of `alg.Verify`
has as second argument the signature view of the token as the options left it; when the
options leave the raw bytes and the two offsets alone, that is `token[sep1+1+sep2+1:]`, the
third segment as it stands in the token, everything after the second `'.'`. -/
theorem Verify_signature_argument {W P : Type} (cd : Codec W P) (token : List Byte)
    (alg : Algorithm W) (payload : P) (opts : List (VerifyOption W P)) (w : W)
    (rt1 rt3 : RawToken W P) (s1 s2 s3 : St W)
    (h1 : 0 ≤ IndexByte token dot)
    (h2 : 0 ≤ IndexByte (sliceFrom token (IndexByte token dot + 1)) dot)
    (hA : (framed token alg).decodeHeader cd (St.init w) = (none, rt1, s1))
    (hB : resolveStep alg rt1.hd s1 = (none, s2))
    (hC : runOpts opts 0 rt1 s2 = (none, rt3, s3)) :
    (∃ hp res post,
        (Verify cd token alg payload opts w).2.2.trace =
            s3.trace ++ Event.algVerify hp rt3.sig res :: post ∧
          (∀ ev ∈ s3.trace, ev.isAlgVerify = false) ∧ ∀ ev ∈ post, ev.isAlgVerify = false) ∧
      ((∀ o ∈ opts, ∀ rt v, (o rt v).2.1.token = rt.token ∧
          (o rt v).2.1.sep1 = rt.sep1 ∧ (o rt v).2.1.sep2 = rt.sep2) →
        rt3.sig =
            sliceFrom token (IndexByte token dot + 1 +
              IndexByte (sliceFrom token (IndexByte token dot + 1)) dot + 1) ∧
          token =
            slice token 0 (IndexByte token dot + 1 +
              IndexByte (sliceFrom token (IndexByte token dot + 1)) dot) ++ dot :: rt3.sig) := by
  obtain ⟨res, post, ht, hpre, hpost⟩ :=
    Verify_signature_call cd token alg payload opts w h1 h2 hA hB hC
  refine ⟨⟨rt3.headerPayload, res, post, ht, hpre, hpost⟩, fun hO => ?_⟩
  obtain ⟨-, hsg⟩ := views_kept cd token alg opts w hA hC hO
  rw [hsg]
  obtain ⟨a, b, sg, rfl, ha, hb, -, -⟩ := framed_decomp token h1 h2
  obtain ⟨-, -, -, -, ep, es⟩ := framed_segments (P := P) alg a b sg ha hb
  refine ⟨rfl, ?_⟩
  have fp : (framed (a ++ dot :: (b ++ dot :: sg)) alg : RawToken W P).headerPayload =
      slice (a ++ dot :: (b ++ dot :: sg)) 0
        (IndexByte (a ++ dot :: (b ++ dot :: sg)) dot + 1 +
          IndexByte (sliceFrom (a ++ dot :: (b ++ dot :: sg))
            (IndexByte (a ++ dot :: (b ++ dot :: sg)) dot + 1)) dot) := rfl
  rw [← fp, ep, es]
  simp

/-- C13, amended, at the token `a.b.QQ`: the second argument of `alg.Verify` is `QQ`. -/
theorem Verify_signature_argument_witness :
    ∃ hp res post,
      (Verify sampleCodec encodedSigToken sampleAlg () [ValidateHeader] 7).2.2.trace =
          [Event.decodeHeader [97] none, Event.option 0 none] ++
            Event.algVerify hp [81, 81] res :: post ∧
        (∀ ev ∈ [Event.decodeHeader [97] none, Event.option 0 none],
          ev.isAlgVerify = false) ∧
        ∀ ev ∈ post, ev.isAlgVerify = false :=
  (Verify_signature_argument sampleCodec encodedSigToken sampleAlg () [ValidateHeader] 7
    _ _ _ _ _ (by decide) (by decide) rfl rfl rfl).1

/-! ## The validator loop -/

theorem okValidations_succ (i n : Nat) :
    okValidations i (n + 1) = Event.validate i none :: okValidations (i + 1) n := by
  induction n generalizing i with
  | zero => rfl
  | succ n ih =>
    have e1 : okValidations i (n + 1 + 1) =
        okValidations i (n + 1) ++ [Event.validate (i + (n + 1)) none] := by
      simp [okValidations, List.range_succ]
    have e2 : okValidations (i + 1) (n + 1) =
        okValidations (i + 1) n ++ [Event.validate (i + 1 + n) none] := by
      simp [okValidations, List.range_succ]
    rw [e1, ih, e2]
    have : i + (n + 1) = i + 1 + n := by omega
    simp [this]

/-- A validator loop that ends without error has called every validator once, in order. -/
theorem runValidators_none {W P : Type} (vds : List (Validator W P)) (i : Nat) (pl : Option P)
    (s s1 : St W) (h : runValidators vds i pl s = (none, s1)) :
    s1.trace = s.trace ++ okValidations i vds.length := by
  induction vds generalizing i s with
  | nil =>
    simp only [runValidators, Prod.mk.injEq] at h
    obtain ⟨-, rfl⟩ := h
    simp [okValidations]
  | cons vd rest ih =>
    simp only [runValidators] at h
    split at h
    · simp at h
    · rename_i herr
      rw [ih _ _ h]
      simp [okValidations_succ, herr]

/-- A validator loop that ends with an error has called the validators up to the first
failing one once each, in order, and no other. -/
theorem runValidators_some {W P : Type} (vds : List (Validator W P)) (i : Nat)
    (pl : Option P) (s s1 : St W) (e : Error) (h : runValidators vds i pl s = (some e, s1)) :
    ∃ k, k < vds.length ∧
      s1.trace = s.trace ++ okValidations i k ++ [Event.validate (i + k) (some e)] := by
  induction vds generalizing i s with
  | nil => simp [runValidators] at h
  | cons vd rest ih =>
    simp only [runValidators] at h
    split at h
    · rename_i err herr
      simp only [Prod.mk.injEq, Option.some.injEq] at h
      obtain ⟨rfl, rfl⟩ := h
      exact ⟨0, by simp, by simp [okValidations, herr]⟩
    · rename_i herr
      obtain ⟨k, hk, hs⟩ := ih _ _ h
      refine ⟨k + 1, by simp [hk], ?_⟩
      rw [hs, okValidations_succ]
      have : i + 1 + k = i + (k + 1) := by omega
      simp [this, herr]

/-- What `ValidatePayload` attaches is still attached after later options that leave `pl` and
`vds` alone. -/
theorem attached_kept {W P : Type} (before after : List (VerifyOption W P)) (pl : Option P)
    (vds : List (Validator W P)) (i : Nat) (rt rt3 : RawToken W P) (s s3 : St W)
    (hC : runOpts (before ++ ValidatePayload pl vds :: after) i rt s = (none, rt3, s3))
    (hkeep : ∀ o ∈ after, ∀ r v, (o r v).2.1.pl = r.pl ∧ (o r v).2.1.vds = r.vds) :
    rt3.pl = pl ∧ rt3.vds = vds := by
  rw [runOpts_append] at hC
  rcases hb : runOpts before i rt s with ⟨_ | e, rtb, sb⟩
  · rw [hb] at hC
    simp only [runOpts] at hC
    have k1 := runOpts_keeps (fun r => r.pl) after (fun o ho r v => (hkeep o ho r v).1)
      (i + before.length + 1) (ValidatePayload pl vds rtb sb.world).2.1
      { world := (ValidatePayload pl vds rtb sb.world).2.2,
        trace := sb.trace ++
          [Event.option (i + before.length) (ValidatePayload pl vds rtb sb.world).1] }
    have k2 := runOpts_keeps (fun r => r.vds) after (fun o ho r v => (hkeep o ho r v).2)
      (i + before.length + 1) (ValidatePayload pl vds rtb sb.world).2.1
      { world := (ValidatePayload pl vds rtb sb.world).2.2,
        trace := sb.trace ++
          [Event.option (i + before.length) (ValidatePayload pl vds rtb sb.world).1] }
    have hC1 : runOpts after (i + before.length + 1)
        (ValidatePayload pl vds rtb sb.world).2.1
        { world := (ValidatePayload pl vds rtb sb.world).2.2,
          trace := sb.trace ++
            [Event.option (i + before.length) (ValidatePayload pl vds rtb sb.world).1] } =
        (none, rt3, s3) := hC
    rw [hC1] at k1 k2
    exact ⟨k1, k2⟩
  · rw [hb] at hC
    simp at hC

/-- Every run of `Verify` either calls no validator, or ends with a validator loop that
starts from a trace without validator calls. -/
theorem Verify_validate_cases {W P : Type} (cd : Codec W P) (token : List Byte)
    (alg : Algorithm W) (payload : P) (opts : List (VerifyOption W P)) (w : W) :
    (∀ ev ∈ (Verify cd token alg payload opts w).2.2.trace, ev.isValidate = false) ∨
      ∃ (vds : List (Validator W P)) (pl : Option P) (s5 : St W),
        (∀ ev ∈ s5.trace, ev.isValidate = false) ∧
          (Verify cd token alg payload opts w).2.1 = (runValidators vds 0 pl s5).1 ∧
          (Verify cd token alg payload opts w).2.2 = (runValidators vds 0 pl s5).2 := by
  by_cases h1 : IndexByte token dot < 0
  · left; rw [Verify_malformed _ _ _ _ _ _ (Or.inl h1)]; simp [St.init]
  by_cases h2 : IndexByte (sliceFrom token (IndexByte token dot + 1)) dot < 0
  · left; rw [Verify_malformed _ _ _ _ _ _ (Or.inr h2)]; simp [St.init]
  have h1' : 0 ≤ IndexByte token dot := by omega
  have h2' : 0 ≤ IndexByte (sliceFrom token (IndexByte token dot + 1)) dot := by omega
  rcases hA : (framed token alg : RawToken W P).decodeHeader cd (St.init w)
    with ⟨_ | e, rt1, s1⟩
  swap
  · left
    rw [Verify_headerErr cd token alg payload opts w h1' h2' hA]
    obtain ⟨t1, -⟩ := decodeHeader_result hA
    intro ev hev
    simp only [t1, St.init, List.nil_append, List.mem_singleton] at hev
    subst hev; rfl
  rcases hB : resolveStep alg rt1.hd s1 with ⟨_ | e, s2⟩
  swap
  · left
    rw [Verify_resolveErr cd token alg payload opts w h1' h2' hA hB]
    obtain ⟨t1, -⟩ := decodeHeader_result hA
    intro ev hev
    rcases resolveStep_result hB with ⟨-, -, h⟩ | ⟨rv, -, t2, -⟩
    · cases h
    · simp only [t2, t1, St.init, List.nil_append, List.mem_append, List.mem_singleton,
        List.mem_cons, List.not_mem_nil, or_false] at hev
      rcases hev with rfl | rfl <;> rfl
  rcases hC : runOpts opts 0 rt1 s2 with ⟨_ | e, rt3, s3⟩
  swap
  · left
    rw [Verify_optErr cd token alg payload opts w h1' h2' hA hB hC]
    exact fun ev hev => (optErr_clean hA hB hC ev hev).2.2
  have hpre := lead_clean hA hB hC
  rcases hD : callVerify alg rt3.headerPayload rt3.sig s3 with ⟨_ | e, s4⟩
  swap
  · left
    rw [Verify_sigErr cd token alg payload opts w h1' h2' hA hB hC hD]
    obtain ⟨t4, -⟩ := callVerify_result hD
    intro ev hev
    simp only [t4, List.mem_append, List.mem_singleton] at hev
    rcases hev with hev | rfl
    · exact (hpre ev hev).2.2
    · rfl
  rw [Verify_decoded cd token alg payload opts w h1' h2' hA hB hC hD]
  obtain ⟨t4, -⟩ := callVerify_result hD
  have hs4 : ∀ ev ∈ s4.trace, ev.isValidate = false := by
    intro ev hev
    simp only [t4, List.mem_append, List.mem_singleton] at hev
    rcases hev with hev | rfl
    · exact (hpre ev hev).2.2
    · rfl
  rcases hE : (cd.claims rt3.claims payload s4.world).1 with _ | e
  · right
    refine ⟨rt3.vds, rt3.pl,
      { world := (cd.claims rt3.claims payload s4.world).2,
        trace := s4.trace ++ [Event.decode rt3.claims none] }, ?_, ?_, ?_⟩
    · intro ev hev
      simp only [List.mem_append, List.mem_singleton] at hev
      rcases hev with hev | rfl
      · exact hs4 ev hev
      · rfl
    · simp only [RawToken.decode, hE]
    · simp only [RawToken.decode, hE]
  · left
    simp only [RawToken.decode, hE]
    intro ev hev
    simp only [List.mem_append, List.mem_singleton] at hev
    rcases hev with hev | rfl
    · exact hs4 ev hev
    · rfl

/-- `ValidateHeader` hands back the token it was given. -/
theorem ValidateHeader_token {W P : Type} (rt : RawToken W P) (w : W) :
    (ValidateHeader rt w).2.1 = rt := by
  unfold ValidateHeader
  by_cases h : (rt.alg.Name w).1 = rt.hd.Algorithm
  · simp [h]
  · simp [h]

/-- With `ValidatePayload(pl, vds...)` installed and left in place, a run that gets through
the claims decode is the validator loop over `vds` on `pl`. -/
theorem Verify_installed_validators {W P : Type} (cd : Codec W P) (token : List Byte)
    (alg : Algorithm W) (payload : P) (before after : List (VerifyOption W P))
    (pl : Option P) (vds : List (Validator W P)) (w : W)
    (rt1 rt3 : RawToken W P) (s1 s2 s3 s5 : St W) (w4 w5 : W)
    (h1 : 0 ≤ IndexByte token dot)
    (h2 : 0 ≤ IndexByte (sliceFrom token (IndexByte token dot + 1)) dot)
    (hA : (framed token alg).decodeHeader cd (St.init w) = (none, rt1, s1))
    (hB : resolveStep alg rt1.hd s1 = (none, s2))
    (hC : runOpts (before ++ ValidatePayload pl vds :: after) 0 rt1 s2 = (none, rt3, s3))
    (hkeep : ∀ o ∈ after, ∀ r v, (o r v).2.1.pl = r.pl ∧ (o r v).2.1.vds = r.vds)
    (hD : alg.Verify rt3.headerPayload rt3.sig s3.world = (none, w4))
    (hE : cd.claims rt3.claims payload w4 = (none, w5))
    (hs5 : s5 = { world := w5,
                  trace := s3.trace ++ [Event.algVerify rt3.headerPayload rt3.sig none,
                    Event.decode rt3.claims none] }) :
    Verify cd token alg payload (before ++ ValidatePayload pl vds :: after) w =
        (rt3.hd, (runValidators vds 0 pl s5).1, (runValidators vds 0 pl s5).2) ∧
      (∀ ev ∈ s5.trace, ev.isValidate = false) ∧
      (∀ e s6, runValidators vds 0 pl s5 = (some e, s6) →
        ∃ k, k < vds.length ∧
          s6.trace = s5.trace ++ okValidations 0 k ++ [Event.validate k (some e)]) ∧
      (∀ s6, runValidators vds 0 pl s5 = (none, s6) →
        s6.trace = s5.trace ++ okValidations 0 vds.length) ∧
      (∀ V1 rest e1, vds = V1 :: rest → (V1 pl w5).1 = some e1 →
        Verify cd token alg payload (before ++ ValidatePayload pl vds :: after) w =
          (rt3.hd, some e1,
            { world := (V1 pl w5).2,
              trace := s5.trace ++ [Event.validate 0 (some e1)] })) := by
  obtain ⟨hpl, hvds⟩ := attached_kept before after pl vds 0 rt1 rt3 s2 s3 hC hkeep
  have hD' : callVerify alg rt3.headerPayload rt3.sig s3 =
      (none, { world := w4,
               trace := s3.trace ++ [Event.algVerify rt3.headerPayload rt3.sig none] }) := by
    simp [callVerify, hD]
  have hdec : rt3.decode cd payload
      { world := w4,
        trace := s3.trace ++ [Event.algVerify rt3.headerPayload rt3.sig none] } =
      runValidators vds 0 pl s5 := by
    simp only [RawToken.decode, hE, hpl, hvds, hs5, List.append_assoc, List.singleton_append]
  have hV : Verify cd token alg payload (before ++ ValidatePayload pl vds :: after) w =
      (rt3.hd, (runValidators vds 0 pl s5).1, (runValidators vds 0 pl s5).2) := by
    rw [Verify_decoded cd token alg payload _ w h1 h2 hA hB hC hD', hdec]
  refine ⟨hV, ?_, ?_, ?_, ?_⟩
  · intro ev hev
    rw [hs5] at hev
    simp only [List.mem_append, List.mem_cons, List.not_mem_nil, or_false] at hev
    rcases hev with hev | rfl | rfl
    · exact (lead_clean hA hB hC ev hev).2.2
    · rfl
    · rfl
  · intro e s6 h6
    obtain ⟨k, hk, ht⟩ := runValidators_some vds 0 pl s5 s6 e h6
    exact ⟨k, hk, by simpa using ht⟩
  · intro s6 h6
    exact runValidators_none vds 0 pl s5 s6 h6
  · intro V1 rest e1 hv he1
    rw [hV, hv]
    have hw : s5.world = w5 := by rw [hs5]
    simp only [runValidators, hw, he1]

/-- A run in which the first attached validator returns `e1` returns `e1` and calls no other
validator. -/
theorem first_validator_error {W P : Type} (cd : Codec W P) (token : List Byte)
    (alg : Algorithm W) (payload : P) (opts : List (VerifyOption W P)) (w : W) (e1 : Error)
    (hin : Event.validate 0 (some e1) ∈ (Verify cd token alg payload opts w).2.2.trace) :
    (Verify cd token alg payload opts w).2.1 = some e1 ∧
      ∀ j r, Event.validate j r ∈ (Verify cd token alg payload opts w).2.2.trace →
        j = 0 ∧ r = some e1 := by
  rcases Verify_validate_cases cd token alg payload opts w with hno | ⟨vds, pl, s5, h5, he, hs⟩
  · have := hno _ hin
    simp [Event.isValidate] at this
  rw [hs] at hin
  rw [he, hs]
  revert hin
  rcases hr : runValidators vds 0 pl s5 with ⟨_ | e, s6⟩
  · intro hin
    have ht := runValidators_none vds 0 pl s5 s6 hr
    simp only [ht, List.mem_append] at hin
    rcases hin with hin | hin
    · have := h5 _ hin
      simp [Event.isValidate] at this
    · simp only [okValidations, List.mem_map, List.mem_range] at hin
      obtain ⟨j, -, hj⟩ := hin
      simp at hj
  · intro hin
    obtain ⟨k, -, ht⟩ := runValidators_some vds 0 pl s5 s6 e hr
    simp only [ht, List.mem_append, List.mem_singleton] at hin
    have hk : k = 0 ∧ e = e1 := by
      rcases hin with (hin | hin) | hin
      · have := h5 _ hin
        simp [Event.isValidate] at this
      · simp only [okValidations, List.mem_map, List.mem_range] at hin
        obtain ⟨j, -, hj⟩ := hin
        simp at hj
      · simp only [Event.validate.injEq, Option.some.injEq] at hin
        exact ⟨by omega, hin.2.symm⟩
    obtain ⟨rfl, rfl⟩ := hk
    refine ⟨rfl, fun j r hjr => ?_⟩
    simp only [ht, okValidations, List.range_zero, List.map_nil, List.append_nil,
      List.mem_append, List.mem_singleton] at hjr
    rcases hjr with hjr | hjr
    · have := h5 _ hjr
      simp [Event.isValidate] at this
    · simp only [Event.validate.injEq] at hjr
      exact ⟨by omega, hjr.2⟩

/-- C14: in every run of `Verify` in which the first attached validator returns an error
`e1`, `Verify` returns `e1` and no other validator is called. With
`ValidatePayload(pl, vds...)` installed, followed only by options that leave `pl` and `vds`
alone, on a token that passes the options and `alg.Verify` and whose claims decode: `Verify`
returns what the validator loop over `vds` on `pl` returns, run after the claims decode and
with no validator call before it; a loop that fails with `e` called the validators
`0 .. k-1`, each once and in order, all returning nil, then validator `k` returning `e`, and
no other; a loop that passes called them all once, in order; and when the first validator
returns `e1`, the trace ends with that one validator call. -/
theorem Verify_validators_in_order {W P : Type} (cd : Codec W P) (token : List Byte)
    (alg : Algorithm W) (payload : P) (opts : List (VerifyOption W P)) (w : W) :
    (∀ e1, Event.validate 0 (some e1) ∈ (Verify cd token alg payload opts w).2.2.trace →
      (Verify cd token alg payload opts w).2.1 = some e1 ∧
        ∀ j r, Event.validate j r ∈ (Verify cd token alg payload opts w).2.2.trace →
          j = 0 ∧ r = some e1) ∧
    (∀ (before after : List (VerifyOption W P)) (pl : Option P) (vds : List (Validator W P))
        (rt1 rt3 : RawToken W P) (s1 s2 s3 s5 : St W) (w4 w5 : W),
      opts = before ++ ValidatePayload pl vds :: after →
      0 ≤ IndexByte token dot →
      0 ≤ IndexByte (sliceFrom token (IndexByte token dot + 1)) dot →
      (framed token alg).decodeHeader cd (St.init w) = (none, rt1, s1) →
      resolveStep alg rt1.hd s1 = (none, s2) →
      runOpts opts 0 rt1 s2 = (none, rt3, s3) →
      (∀ o ∈ after, ∀ r v, (o r v).2.1.pl = r.pl ∧ (o r v).2.1.vds = r.vds) →
      alg.Verify rt3.headerPayload rt3.sig s3.world = (none, w4) →
      cd.claims rt3.claims payload w4 = (none, w5) →
      s5 = { world := w5,
             trace := s3.trace ++ [Event.algVerify rt3.headerPayload rt3.sig none,
               Event.decode rt3.claims none] } →
      Verify cd token alg payload opts w =
          (rt3.hd, (runValidators vds 0 pl s5).1, (runValidators vds 0 pl s5).2) ∧
        (∀ ev ∈ s5.trace, ev.isValidate = false) ∧
        (∀ e s6, runValidators vds 0 pl s5 = (some e, s6) →
          ∃ k, k < vds.length ∧
            s6.trace = s5.trace ++ okValidations 0 k ++ [Event.validate k (some e)]) ∧
        (∀ s6, runValidators vds 0 pl s5 = (none, s6) →
          s6.trace = s5.trace ++ okValidations 0 vds.length) ∧
        (∀ V1 rest e1, vds = V1 :: rest → (V1 pl w5).1 = some e1 →
          Verify cd token alg payload opts w =
            (rt3.hd, some e1,
              { world := (V1 pl w5).2,
                trace := s5.trace ++ [Event.validate 0 (some e1)] }))) := by
  refine ⟨fun e1 hin => first_validator_error cd token alg payload opts w e1 hin, ?_⟩
  intro before after pl vds rt1 rt3 s1 s2 s3 s5 w4 w5 hopts h1 h2 hA hB hC hkeep hD hE hs5
  subst hopts
  exact Verify_installed_validators cd token alg payload before after pl vds w rt1 rt3
    s1 s2 s3 s5 w4 w5 h1 h2 hA hB hC hkeep hD hE hs5

/-- C14 at the token `a.b.s` with `ValidatePayload` of a failing and a passing validator,
followed by `ValidateHeader`: the first validator's error is returned, the second validator
is not called. -/
theorem Verify_validators_in_order_witness :
    Verify sampleCodec goodToken sampleAlg ()
        [ValidatePayload (some ()) [failingValidator, passingValidator], ValidateHeader] 7 =
      ({ Algorithm := "HS256" }, some (Error.other 5),
        { world := 2,
          trace := [Event.decodeHeader [97] none, Event.option 0 none, Event.option 1 none,
            Event.algVerify [97, 46, 98] [115] none, Event.decode [98] none] ++
            [Event.validate 0 (some (Error.other 5))] }) :=
  ((Verify_validators_in_order sampleCodec goodToken sampleAlg ()
    [ValidatePayload (some ()) [failingValidator, passingValidator], ValidateHeader] 7).2
    [] [ValidateHeader] (some ()) [failingValidator, passingValidator] _ _ _ _ _ _ _ _
    rfl (by decide) (by decide) rfl rfl rfl
    (fun o ho r v => by
      rw [List.mem_singleton] at ho
      subst ho
      rw [ValidateHeader_token]
      exact ⟨rfl, rfl⟩)
    rfl rfl rfl).2.2.2.2 failingValidator [passingValidator] (Error.other 5) rfl rfl

end Jwt
